import Mathlib

/-!
Verification development for the POCKET+ (CCSDS 124.0-B-1) compressor /
decompressor, shallowly embedded from the Rust sources
(`bitvector.rs`, `bitbuffer.rs`, `bitreader.rs`, `encode.rs`, `decode.rs`,
`mask.rs`, `compress.rs`, `decompress.rs`).

Machine integers are modelled as `Nat` with explicit reductions modulo
`2 ^ 32` where u32 overflow can occur.  Bounded `while` loops are modelled
by structural recursion on an explicit fuel argument chosen so that fuel
exhaustion is unreachable (each case is documented at the definition).
Fallible Rust functions returning `Result` become `Except PocketError`.
-/

namespace PocketPlus

/-- Errors, from `error.rs` (`PocketError`). -/
inductive PocketError where
  | invalidPacketSize (size : Nat)
  | invalidRobustness (r : Nat)
  | invalidInputLength (expected actual : Nat)
  | unexpectedEndOfInput
  | invalidFormat (msg : String)
  | bufferOverflow
  | underflow
  | invalidLength
deriving DecidableEq, Repr

/-- Number of 1 bits in the binary representation of a natural number;
models `u32::count_ones` for values below `2 ^ 32`; `fuel` bounds the
number of binary digits inspected, keeping the recursion structural. -/
def countOnesAux : Nat → Nat → Nat
  | 0, _ => 0
  | fuel + 1, n => if n = 0 then 0 else countOnesAux fuel (n / 2) + n % 2

/-- Number of 1 bits in the binary representation of a natural number;
models `u32::count_ones` for values below `2 ^ 64` (every word the
embedding stores is below `2 ^ 32`, so 64 digits of fuel always suffice). -/
def countOnes (n : Nat) : Nat := countOnesAux 64 n

/-- All 32 bits set: the u32 value `0xFFFF_FFFF`. -/
def word32Max : Nat := 4294967295

/-- The u32 modulus `2 ^ 32`. -/
def word32Mod : Nat := 4294967296

/-- Fixed-length bit vector from `bitvector.rs`: 32-bit words with big-endian
byte packing.  Bit `pos` of the vector lives at bit `31 - pos % 32` of word
`pos / 32`.  `data` holds the words as naturals below `2 ^ 32`. -/
structure BitVector where
  data : List Nat
  length : Nat
deriving DecidableEq, Repr

instance : Inhabited BitVector := ⟨⟨[], 0⟩⟩

/-- Number of 32-bit words backing a vector of `numBits` bits:
`ceil(ceil(numBits/8)/4)`, as computed in `BitVector::new`. -/
def numWordsFor (numBits : Nat) : Nat := ((numBits + 7) / 8 + 3) / 4

/-- `BitVector::new`: all-zero vector of `numBits` bits. -/
def BitVector.new (numBits : Nat) : BitVector :=
  ⟨List.replicate (numWordsFor numBits) 0, numBits⟩

/-- Packs a byte list into 32-bit words, big-endian within each word:
word = `b0 <<< 24 ||| b1 <<< 16 ||| b2 <<< 8 ||| b3`, with missing trailing
bytes contributing zero, as the byte loop of `BitVector::from_bytes` does. -/
def packWords : List Nat → List Nat
  | [] => []
  | [a] => [a <<< 24]
  | [a, b] => [a <<< 24 ||| b <<< 16]
  | [a, b, c] => [a <<< 24 ||| b <<< 16 ||| c <<< 8]
  | a :: b :: c :: d :: rest => (a <<< 24 ||| b <<< 16 ||| c <<< 8 ||| d) :: packWords rest

/-- `BitVector::from_bytes` (on byte slices long enough for `numBits`, the
only case the Rust code admits — it asserts otherwise). -/
def BitVector.from_bytes (bytes : List Nat) (numBits : Nat) : BitVector :=
  ⟨packWords (bytes.take ((numBits + 7) / 8)), numBits⟩

/-- The four big-endian bytes of one 32-bit word. -/
def wordToBytes (w : Nat) : List Nat :=
  [(w >>> 24) &&& 255, (w >>> 16) &&& 255, (w >>> 8) &&& 255, w &&& 255]

/-- `BitVector::to_bytes`: big-endian bytes of each word, truncated to the
byte count of the vector. -/
def BitVector.to_bytes (v : BitVector) : List Nat :=
  ((v.data.map wordToBytes).flatten).take ((v.length + 7) / 8)

/-- `BitVector::zero`. -/
def BitVector.zero (v : BitVector) : BitVector :=
  ⟨v.data.map (fun _ => 0), v.length⟩

/-- `BitVector::get_bit`: 0 when `pos` is out of range, else the stored bit.
The Rust shifts are `pos >> 5` and `31 - (pos & 31)`, i.e. `pos / 32` and
`31 - pos % 32`. -/
def BitVector.get_bit (v : BitVector) (pos : Nat) : Nat :=
  if pos ≥ v.length then 0
  else (v.data.getD (pos / 32) 0 >>> (31 - pos % 32)) &&& 1

/-- `BitVector::set_bit`: no-op when `pos` is out of range; otherwise sets or
clears the addressed bit of the addressed word (`&= !(1 << b)` on u32 is
`&&& (word32Max ^^^ (1 <<< b))`). -/
def BitVector.set_bit (v : BitVector) (pos : Nat) (value : Nat) : BitVector :=
  if pos ≥ v.length then v
  else
    let wi := pos / 32
    let bi := 31 - pos % 32
    let w := v.data.getD wi 0
    let w2 := if value ≠ 0 then w ||| (1 <<< bi) else w &&& (word32Max ^^^ (1 <<< bi))
    ⟨v.data.set wi w2, v.length⟩

/-- `BitVector::xor`: fresh vector of `a.length` bits whose first
`min |a.data| |b.data|` words are the word-wise XOR, remaining words zero. -/
def BitVector.xor (a b : BitVector) : BitVector :=
  let n := min a.data.length b.data.length
  ⟨(List.range (numWordsFor a.length)).map
    (fun i => if i < n then (a.data.getD i 0) ^^^ (b.data.getD i 0) else 0), a.length⟩

/-- `BitVector::or` (same shape as `xor`). -/
def BitVector.or (a b : BitVector) : BitVector :=
  let n := min a.data.length b.data.length
  ⟨(List.range (numWordsFor a.length)).map
    (fun i => if i < n then (a.data.getD i 0) ||| (b.data.getD i 0) else 0), a.length⟩

/-- `BitVector::and` (same shape as `xor`). -/
def BitVector.and (a b : BitVector) : BitVector :=
  let n := min a.data.length b.data.length
  ⟨(List.range (numWordsFor a.length)).map
    (fun i => if i < n then (a.data.getD i 0) &&& (b.data.getD i 0) else 0), a.length⟩

/-- `BitVector::or_assign`: in-place OR over the first
`min |a.data| |b.data|` words, keeping `a`'s shape. -/
def BitVector.or_assign (a b : BitVector) : BitVector :=
  let n := min a.data.length b.data.length
  ⟨(List.range a.data.length).map
    (fun i => if i < n then (a.data.getD i 0) ||| (b.data.getD i 0) else a.data.getD i 0),
   a.length⟩

/-- The valid-bit mask `BitVector::not` applies to its last stored word,
built byte by byte exactly as the Rust loop does. -/
def notMask (length : Nat) : Nat :=
  let numBytes := (length + 7) / 8
  let bytesInLastWord := (numBytes - 1) % 4 + 1
  let bitsInLastByte := length - (numBytes - 1) * 8
  (List.range bytesInLastWord).foldl
    (fun m byte =>
      let byteMask : Nat :=
        if byte = bytesInLastWord - 1 then
          if bitsInLastByte ≥ 8 then 255 else 2 ^ bitsInLastByte - 1
        else 255
      m ||| (byteMask <<< ((3 - byte) * 8)))
    0

/-- `BitVector::not`: complement every word (u32 `!w` is
`word32Max ^^^ w` for `w < 2 ^ 32`), then mask the word at index
`|v.data| - 1` with `notMask`. -/
def BitVector.not (v : BitVector) : BitVector :=
  let n := numWordsFor v.length
  let base := (List.range n).map
    (fun i => if i < v.data.length then word32Max ^^^ v.data.getD i 0 else 0)
  if v.data.isEmpty then ⟨base, v.length⟩
  else
    let li := v.data.length - 1
    ⟨base.set li ((base.getD li 0) &&& notMask v.length), v.length⟩

/-- `BitVector::left_shift`: shift one position toward bit 0; each word takes
the top bit of the following word, the final word shifts in a zero.  The u32
shift drops the outgoing top bit, hence the `&&& word32Max`. -/
def BitVector.left_shift (v : BitVector) : BitVector :=
  ⟨(List.range v.data.length).map
    (fun i =>
      if i + 1 < v.data.length then
        (((v.data.getD i 0) <<< 1) &&& word32Max) ||| ((v.data.getD (i + 1) 0) >>> 31)
      else ((v.data.getD i 0) <<< 1) &&& word32Max),
   v.length⟩

/-- `BitVector::hamming_weight`: popcount of all stored words, minus the
popcount of the low `extraBits` bits of the last word (the adjustment the
Rust code makes for bits beyond `length`). -/
def BitVector.hamming_weight (v : BitVector) : Nat :=
  let count := v.data.foldl (fun acc w => acc + countOnes w) 0
  let numBytes := (v.length + 7) / 8
  let extraBits := numBytes * 8 - v.length
  if extraBits > 0 ∧ v.data ≠ [] then
    count - countOnes ((v.data.getLastD 0) &&& (2 ^ extraBits - 1))
  else count

/-- A vector's storage is garbage-free when every stored 1 bit addresses a
position below `length`: stored bit `k` of word `i` holds position
`i * 32 + (31 - k)` of the vector. -/
def BitVector.GarbageFree (v : BitVector) : Prop :=
  ∀ i, i < v.data.length → ∀ k, k < 32 →
    (v.data.getD i 0).testBit k = true → i * 32 + (31 - k) < v.length

instance (v : BitVector) : Decidable v.GarbageFree := by
  unfold BitVector.GarbageFree
  infer_instance

/-- Output cap from `bitbuffer.rs` (`MAX_OUTPUT_BYTES`). -/
def maxOutputBytes : Nat := 65535 * 6

/-- Append-only MSB-first bit sink from `bitbuffer.rs`.  The Rust struct keeps
flushed bytes plus a 64-bit accumulator; its observable content is the
MSB-first sequence of appended bits, which is what `bits` records. -/
structure BitBuffer where
  bits : List Bool
deriving DecidableEq, Repr

/-- `BitBuffer::new`. -/
def BitBuffer.new : BitBuffer := ⟨[]⟩

/-- `BitBuffer::len`: the number of bits appended so far. -/
def BitBuffer.len (b : BitBuffer) : Nat := b.bits.length

/-- `BitBuffer::append_bit`: `none` models the `false` (overflow refused)
return; the appended bit is `bit &&& 1`, as in the Rust accumulator. -/
def BitBuffer.append_bit (b : BitBuffer) (bit : Nat) : Option BitBuffer :=
  if b.bits.length ≥ maxOutputBytes * 8 then none
  else some ⟨b.bits ++ [decide (bit &&& 1 = 1)]⟩

/-- The `n` bits of `v % 2 ^ n`, most significant first: the bit pattern
`append_value` pushes into the accumulator. -/
def bitsBE (n v : Nat) : List Bool :=
  (List.range n).map (fun k => v.testBit (n - 1 - k))

/-- `BitBuffer::append_value`: rejects `n = 0` or `n > 56` and overflow,
otherwise appends the masked value MSB-first. -/
def BitBuffer.append_value (b : BitBuffer) (value n : Nat) : Option BitBuffer :=
  if n = 0 ∨ n > 56 then none
  else if b.bits.length + n > maxOutputBytes * 8 then none
  else some ⟨b.bits ++ bitsBE n value⟩

/-- `BitBuffer::append_bitvector`: appends `bv.get_bit pos` for
`pos = 0, …, bv.length - 1` in order (the Rust byte loop visits exactly
these positions in this order). -/
def BitBuffer.append_bitvector (b : BitBuffer) (v : BitVector) : Option BitBuffer :=
  (List.range v.length).foldl
    (fun ob pos => ob.bind (fun bb => bb.append_bit (v.get_bit pos))) (some b)

/-- 1 when a bit list holds `true` at `i`, else 0 (missing positions read 0). -/
def bitN (bits : List Bool) (i : Nat) : Nat := bif bits.getD i false then 1 else 0

/-- Byte `j` of a packed MSB-first bit list: bit `8 j` is the MSB.  The final
partial byte is padded with zero in its low bits, as the Rust
`to_bytes` flush does. -/
def byteFromBits (bits : List Bool) (j : Nat) : Nat :=
  128 * bitN bits (8 * j) + 64 * bitN bits (8 * j + 1) + 32 * bitN bits (8 * j + 2) +
    16 * bitN bits (8 * j + 3) + 8 * bitN bits (8 * j + 4) + 4 * bitN bits (8 * j + 5) +
    2 * bitN bits (8 * j + 6) + bitN bits (8 * j + 7)

/-- MSB-first numeric value of a bit list, as accumulated by the MSB-first
readers and writers. -/
def valOfBits (bs : List Bool) : Nat :=
  bs.foldl (fun acc b => 2 * acc + (bif b then 1 else 0)) 0

/-- `BitBuffer::to_bytes`: the appended bits packed MSB-first into bytes. -/
def BitBuffer.to_bytes (b : BitBuffer) : List Nat :=
  (List.range ((b.bits.length + 7) / 8)).map (byteFromBits b.bits)

/-- Sequential MSB-first bit reader over a byte slice, from `bitreader.rs`. -/
structure BitReader where
  data : List Nat
  numBits : Nat
  bitPos : Nat
deriving DecidableEq, Repr

/-- `BitReader::new`. -/
def BitReader.new (data : List Nat) (numBits : Nat) : BitReader := ⟨data, numBits, 0⟩

/-- Bit `i` of a byte list, MSB-first within each byte:
`(data[i / 8] >> (7 - i % 8)) & 1`. -/
def bitAt (data : List Nat) (i : Nat) : Nat :=
  (data.getD (i / 8) 0 >>> (7 - i % 8)) &&& 1

/-- `BitReader::remaining`. -/
def BitReader.remaining (r : BitReader) : Nat := r.numBits - r.bitPos

/-- `BitReader::read_bit`. -/
def BitReader.read_bit (r : BitReader) : Except PocketError (Nat × BitReader) :=
  if r.bitPos ≥ r.numBits then .error .underflow
  else .ok (bitAt r.data r.bitPos, ⟨r.data, r.numBits, r.bitPos + 1⟩)

/-- MSB-first value of the `n` bits starting at `pos`: the accumulated value
the byte-chunked loop of `BitReader::read_bits` computes. -/
def readValAt (data : List Nat) (pos n : Nat) : Nat :=
  (List.range n).foldl (fun a k => 2 * a + bitAt data (pos + k)) 0

/-- `BitReader::read_bits`: guards `1 ≤ n ≤ 32` and availability, then
returns the MSB-first value of the next `n` bits. -/
def BitReader.read_bits (r : BitReader) (n : Nat) : Except PocketError (Nat × BitReader) :=
  if n = 0 ∨ n > 32 then .error .invalidLength
  else if r.remaining < n then .error .underflow
  else .ok (readValAt r.data r.bitPos n, ⟨r.data, r.numBits, r.bitPos + n⟩)

/-- `BitReader::back`: rewinds exactly one bit. -/
def BitReader.back (r : BitReader) : Except PocketError BitReader :=
  if r.bitPos = 0 then .error .underflow
  else .ok ⟨r.data, r.numBits, r.bitPos - 1⟩

/-- `BitReader::align_byte`. -/
def BitReader.align_byte (r : BitReader) : BitReader :=
  if r.bitPos % 8 = 0 then r
  else ⟨r.data, r.numBits, r.bitPos + (8 - r.bitPos % 8)⟩

/-- The precomputed `COUNT_VALUES` table of `encode.rs`. -/
def countValues : List Nat :=
  [0, 0,
   0xC0, 0xC1, 0xC2, 0xC3, 0xC4, 0xC5, 0xC6, 0xC7,
   0xC8, 0xC9, 0xCA, 0xCB, 0xCC, 0xCD, 0xCE, 0xCF,
   0xD0, 0xD1, 0xD2, 0xD3, 0xD4, 0xD5, 0xD6, 0xD7,
   0xD8, 0xD9, 0xDA, 0xDB, 0xDC, 0xDD, 0xDE, 0xDF]

/-- The `DEBRUIJN_LOOKUP` table of `encode.rs`. -/
def debruijnLookup : List Nat :=
  [1, 2, 29, 3, 30, 15, 25, 4, 31, 23, 21, 16, 26, 18, 5, 9,
   32, 28, 14, 24, 22, 20, 17, 8, 27, 13, 19, 7, 12, 6, 11, 10]

/-- u32 `wrapping_neg`: `(2 ^ 32 - w) % 2 ^ 32`. -/
def wrapNeg (w : Nat) : Nat := (word32Mod - w) % word32Mod

/-- Bit position within a word computed from an isolated LSB by the DeBruijn
multiply of `encode.rs`, already folded with the `32 - x` step, so the result
is the `bit_position_in_word` used to form global positions. -/
def debruijnPos (lsb : Nat) : Nat :=
  32 - debruijnLookup.getD ((lsb * 0x077CB531 % word32Mod) >>> 27) 0

/-- `count_encode` from `encode.rs`. -/
def count_encode (output : BitBuffer) (a : Nat) : Except PocketError BitBuffer :=
  if a = 0 ∨ a > 65535 then .error (.invalidFormat ("COUNT value out of range"))
  else if a = 1 then
    match output.append_bit 0 with
    | none => .error .bufferOverflow
    | some o => .ok o
  else if a ≤ 33 then
    match output.append_value (countValues.getD a 0) 8 with
    | none => .error .bufferOverflow
    | some o => .ok o
  else
    match output.append_value 7 3 with
    | none => .error .bufferOverflow
    | some o =>
      let value := a - 2
      let highestBit := Nat.log2 value
      let e := 2 * (highestBit + 1) - 6
      match o.append_value value e with
      | none => .error .bufferOverflow
      | some o2 => .ok o2

/-- Inner while-loop of `rle_encode`: emits a COUNT for each set bit of
`wordData` (isolated-LSB walk), returning the buffer and updated position.
Fuel 32 bounds the loop: each pass clears one set bit of a u32.
The Rust delta is an `i32 → u32` cast; here `oldPos - newPos` truncates at
zero instead, and both `0` and wrapped negatives make `count_encode` fail
with the same `invalidFormat` error, so behaviour agrees. -/
def rleWordLoop (fuel : Nat) (output : BitBuffer) (wordIdx oldPos wordData : Nat) :
    Except PocketError (BitBuffer × Nat) :=
  match fuel with
  | 0 => .ok (output, oldPos)
  | fuel + 1 =>
    if wordData = 0 then .ok (output, oldPos)
    else
      let lsb := wordData &&& wrapNeg wordData
      let bitPosInWord := debruijnPos lsb
      let newPos := wordIdx * 32 + bitPosInWord
      match count_encode output (oldPos - newPos) with
      | .error e => .error e
      | .ok o => rleWordLoop fuel o wordIdx newPos (wordData ^^^ lsb)

/-- `rle_encode` from `encode.rs`: walk words high to low, COUNT-encode the
gap to each set bit, then append the terminator `10`. -/
def rle_encode (output : BitBuffer) (input : BitVector) : Except PocketError BitBuffer :=
  let step := (List.range input.data.length).reverse.foldlM
    (fun (st : BitBuffer × Nat) wi =>
      rleWordLoop 32 st.1 wi st.2 (input.data.getD wi 0))
    (output, input.length)
  match step with
  | .error e => .error e
  | .ok (o, _) =>
    match o.append_value 2 2 with
    | none => .error .bufferOverflow
    | some o2 => .ok o2

/-- Inner while-loop of `bit_extract`: for each set bit of `maskWord`
(isolated-LSB walk), append the data bit when the global position is below
`len`.  Fuel 32 bounds the loop as in `rleWordLoop`. -/
def beWordLoop (fuel : Nat) (output : BitBuffer) (wordIdx len dataWord maskWord : Nat) :
    Except PocketError BitBuffer :=
  match fuel with
  | 0 => .ok output
  | fuel + 1 =>
    if maskWord = 0 then .ok output
    else
      let lsb := maskWord &&& wrapNeg maskWord
      let bitPosInWord := debruijnPos lsb
      let globalPos := wordIdx * 32 + bitPosInWord
      if globalPos < len then
        let bit := if dataWord &&& lsb ≠ 0 then 1 else 0
        match output.append_bit bit with
        | none => .error .bufferOverflow
        | some o => beWordLoop fuel o wordIdx len dataWord (maskWord ^^^ lsb)
      else beWordLoop fuel output wordIdx len dataWord (maskWord ^^^ lsb)

/-- `bit_extract` (BE) from `encode.rs`: reverse word walk, bits from the
highest mask position down to the lowest. -/
def bit_extract (output : BitBuffer) (data mask : BitVector) :
    Except PocketError BitBuffer :=
  if data.length ≠ mask.length then
    .error (.invalidInputLength mask.length data.length)
  else
    (List.range mask.data.length).reverse.foldlM
      (fun o wi => beWordLoop 32 o wi data.length (data.data.getD wi 0) (mask.data.getD wi 0))
      output

/-- Inner while-loop of `bit_extract_forward`: walks set bits of a word from
its MSB down using count-leading-zeros (`clz = 31 - log2 w` for `w < 2 ^ 32`). -/
def befWordLoop (fuel : Nat) (output : BitBuffer) (wordIdx len dataWord maskWord : Nat) :
    Except PocketError BitBuffer :=
  match fuel with
  | 0 => .ok output
  | fuel + 1 =>
    if maskWord = 0 then .ok output
    else
      let clz := 31 - Nat.log2 maskWord
      let globalPos := wordIdx * 32 + clz
      let bitMask := 1 <<< (31 - clz)
      let rest := maskWord &&& (word32Max ^^^ bitMask)
      if globalPos < len then
        let bit := if dataWord &&& bitMask ≠ 0 then 1 else 0
        match output.append_bit bit with
        | none => .error .bufferOverflow
        | some o => befWordLoop fuel o wordIdx len dataWord rest
      else befWordLoop fuel output wordIdx len dataWord rest

/-- `bit_extract_forward` from `encode.rs`: forward word walk, MSBs first. -/
def bit_extract_forward (output : BitBuffer) (data mask : BitVector) :
    Except PocketError BitBuffer :=
  if data.length ≠ mask.length then
    .error (.invalidInputLength mask.length data.length)
  else
    (List.range mask.data.length).foldlM
      (fun o wi => befWordLoop 32 o wi data.length (data.data.getD wi 0) (mask.data.getD wi 0))
      output

/-- Zero-counting loop of `count_decode`'s large-value branch: reads bits,
incrementing `size`, until a 1 bit is read.  Each pass consumes one bit, so
fuel `remaining + 1` (as passed by `count_decode`) never runs out before the
reader underflows; the fuel-0 arm mirrors that underflow. -/
def countZerosLoop (fuel : Nat) (r : BitReader) (size : Nat) :
    Except PocketError (Nat × BitReader) :=
  match fuel with
  | 0 => .error .underflow
  | fuel + 1 =>
    match r.read_bit with
    | .error e => .error e
    | .ok (b, r2) =>
      if b = 1 then .ok (size + 1, r2)
      else countZerosLoop fuel r2 (size + 1)

/-- `count_decode` from `decode.rs`: `0` gives 1; `10` gives the terminator
0; `110` plus 5 bits gives value + 2; `111` enters the unary-zeros branch
(count zeros to a 1, rewind one bit, read `size + 5` bits, add 2). -/
def count_decode (r : BitReader) : Except PocketError (Nat × BitReader) :=
  match r.read_bit with
  | .error e => .error e
  | .ok (b0, r) =>
    if b0 = 0 then .ok (1, r)
    else
      match r.read_bit with
      | .error e => .error e
      | .ok (b1, r) =>
        if b1 = 0 then .ok (0, r)
        else
          match r.read_bit with
          | .error e => .error e
          | .ok (b2, r) =>
            if b2 = 0 then
              match r.read_bits 5 with
              | .error e => .error e
              | .ok (raw, r) => .ok (raw + 2, r)
            else
              match countZerosLoop (r.remaining + 1) r 0 with
              | .error e => .error e
              | .ok (size, r) =>
                match r.back with
                | .error e => .error e
                | .ok r =>
                  match r.read_bits (size + 5) with
                  | .error e => .error e
                  | .ok (raw, r) => .ok (raw + 2, r)

/-- Loop of `rle_decode`: read COUNTs until the 0 terminator; a nonzero delta
within range moves the position down and sets that bit, an out-of-range delta
is skipped.  Every successful `count_decode` consumes at least one bit, so
fuel `remaining + 1` never runs out before the reader underflows. -/
def rleDecodeLoop (fuel : Nat) (r : BitReader) (result : BitVector) (bitPosition : Nat) :
    Except PocketError (BitVector × BitReader) :=
  match fuel with
  | 0 => .error .underflow
  | fuel + 1 =>
    match count_decode r with
    | .error e => .error e
    | .ok (delta, r2) =>
      if delta = 0 then .ok (result, r2)
      else if delta ≤ bitPosition then
        rleDecodeLoop fuel r2 ((result.set_bit (bitPosition - delta) 1)) (bitPosition - delta)
      else rleDecodeLoop fuel r2 result bitPosition

/-- `rle_decode` from `decode.rs`. -/
def rle_decode (r : BitReader) (length : Nat) :
    Except PocketError (BitVector × BitReader) :=
  rleDecodeLoop (r.remaining + 1) r (BitVector.new length) length

/-- Position walk of `bit_insert`: processes positions `k - 1, …, 0` in that
order, reading one bit for each set mask position. -/
def bitInsertLoop (k : Nat) (r : BitReader) (data : BitVector) (mask : BitVector) :
    Except PocketError (BitVector × BitReader) :=
  match k with
  | 0 => .ok (data, r)
  | k + 1 =>
    if mask.get_bit k ≠ 0 then
      match r.read_bit with
      | .error e => .error e
      | .ok (bit, r2) => bitInsertLoop k r2 (data.set_bit k bit) mask
    else bitInsertLoop k r data mask

/-- `bit_insert` from `decode.rs`: bits are inserted at mask positions from
high to low, matching BE extraction order. -/
def bit_insert (r : BitReader) (data mask : BitVector) :
    Except PocketError (BitVector × BitReader) :=
  if data.length ≠ mask.length then
    .error (.invalidInputLength mask.length data.length)
  else bitInsertLoop mask.length r data mask

/-- `update_build` from `mask.rs` (CCSDS Equation 6), functionally: the new
build vector. -/
def update_build (build input prev_input : BitVector) (new_mask_flag : Bool) (t : Nat) :
    BitVector :=
  if t = 0 ∨ new_mask_flag then build.zero
  else (input.xor prev_input).or build

/-- `update_mask` from `mask.rs` (CCSDS Equation 7), functionally: the new
mask vector. -/
def update_mask (mask input prev_input build_prev : BitVector) (new_mask_flag : Bool) :
    BitVector :=
  let changes := input.xor prev_input
  if new_mask_flag then changes.or build_prev
  else changes.or mask

/-- `compute_change` from `mask.rs` (CCSDS Equation 8). -/
def compute_change (mask prev_mask : BitVector) (t : Nat) : BitVector :=
  if t = 0 then mask else mask.xor prev_mask

/-- `MAX_HISTORY` / `MAX_VT_HISTORY` from `compress.rs`. -/
def maxHistory : Nat := 16

/-- Per-packet control flags (`CompressionParams` in `compress.rs`). -/
structure CompressionParams where
  new_mask_flag : Bool
  send_mask_flag : Bool
  uncompressed_flag : Bool
deriving DecidableEq, Repr

/-- Compressor state from `compress.rs`. -/
structure Compressor where
  f : Nat
  robustness : Nat
  mask : BitVector
  prev_mask : BitVector
  build : BitVector
  prev_input : BitVector
  initial_mask : BitVector
  change_history : List BitVector
  history_index : Nat
  flag_history : List Bool
  flag_history_index : Nat
  t : Nat
  pt_limit : Nat
  ft_limit : Nat
  rt_limit : Nat
  pt_counter : Nat
  ft_counter : Nat
  rt_counter : Nat
deriving Repr

/-- `Compressor::reset`. -/
def Compressor.reset (c : Compressor) : Compressor :=
  { c with
    t := 0
    history_index := 0
    flag_history_index := 0
    mask := c.initial_mask
    prev_mask := c.prev_mask.zero
    build := c.build.zero
    prev_input := c.prev_input.zero
    change_history := c.change_history.map BitVector.zero
    flag_history := c.flag_history.map (fun _ => false)
    pt_counter := c.pt_limit
    ft_counter := c.ft_limit
    rt_counter := c.rt_limit }

/-- `Compressor::new`: validates `f` and the robustness, builds the initial
state and applies `reset`. -/
def Compressor.new (f : Nat) (initial_mask : Option BitVector) (robustness : Nat)
    (pt_limit ft_limit rt_limit : Nat) : Except PocketError Compressor :=
  if f = 0 ∨ f > 65535 then .error (.invalidPacketSize f)
  else if robustness > 7 then .error (.invalidRobustness robustness)
  else
    let mask := initial_mask.getD (BitVector.new f)
    .ok (Compressor.reset
      { f := f
        robustness := robustness
        mask := mask
        prev_mask := BitVector.new f
        build := BitVector.new f
        prev_input := BitVector.new f
        initial_mask := mask
        change_history := List.replicate maxHistory ((BitVector.new f).zero)
        history_index := 0
        flag_history := List.replicate maxHistory false
        flag_history_index := 0
        t := 0
        pt_limit := pt_limit
        ft_limit := ft_limit
        rt_limit := rt_limit
        pt_counter := pt_limit
        ft_counter := ft_limit
        rt_counter := rt_limit })

/-- `Compressor::compute_robustness_window`: OR of the current change with
the previous `min t robustness` entries of the change ring. -/
def Compressor.compute_robustness_window (c : Compressor) (current_change : BitVector) :
    BitVector :=
  if c.robustness = 0 ∨ c.t = 0 then current_change
  else
    let numChanges := min c.t c.robustness
    (List.range numChanges).foldl
      (fun xt i0 =>
        let histIdx := (c.history_index + maxHistory - (i0 + 1)) % maxHistory
        xt.or (c.change_history.getD histIdx default))
      current_change

/-- Counting loop of `compute_effective_robustness`: scans ring entries at
distances `i, i + 1, …`, counting zero-weight entries, stopping at the first
nonzero entry or when the count reaches `15 - rt`.  The caller passes fuel
equal to the number of loop indices, so fuel 0 is normal exit. -/
def effLoop (hist : List BitVector) (histIndex rt : Nat) :
    Nat → Nat → Nat → Nat
  | 0, _, ct => ct
  | fuel + 1, i, ct =>
    let histIdx := (histIndex + maxHistory - i) % maxHistory
    if (hist.getD histIdx default).hamming_weight > 0 then ct
    else
      let ct2 := ct + 1
      if ct2 ≥ 15 - rt then ct2
      else effLoop hist histIndex rt fuel (i + 1) ct2

/-- `Compressor::compute_effective_robustness`. -/
def Compressor.compute_effective_robustness (c : Compressor) : Nat :=
  let rt := c.robustness
  if c.t > rt then
    let bound := min 15 c.t
    let ct :=
      if bound < rt + 1 then 0
      else effLoop c.change_history c.history_index rt (bound - rt) (rt + 1) 0
    min (rt + ct) 15
  else rt

/-- `Compressor::has_positive_updates`: any set bit of `xt ∧ ¬mask`. -/
def Compressor.has_positive_updates (c : Compressor) (xt : BitVector) : Bool :=
  (xt.and c.mask.not).hamming_weight > 0

/-- `Compressor::compute_ct_flag`. -/
def Compressor.compute_ct_flag (c : Compressor) (vt : Nat) (current_new_mask_flag : Bool) :
    Bool :=
  if vt = 0 then false
  else
    let iterations := min vt c.t
    let count := (List.range iterations).foldl
      (fun cnt i =>
        let histIdx := (c.flag_history_index + maxHistory - 1 - i) % maxHistory
        if c.flag_history.getD histIdx false then cnt + 1 else cnt)
      (if current_new_mask_flag then 1 else 0)
    count ≥ 2

/-- The `e_t` / `k_t` / `c_t` tail of the `h_t` header (the
`if vt > 0 && xt.hamming_weight() > 0` block of `compress_packet`).  Appends
whose success flag the Rust code ignores are modelled with `Option.getD`,
keeping the buffer unchanged when the append is refused. -/
def encodeHtTail (c : Compressor) (xt : BitVector) (vt : Nat)
    (params : CompressionParams) (output : BitBuffer) : Except PocketError BitBuffer :=
  if vt > 0 ∧ xt.hamming_weight > 0 then
    let et := c.has_positive_updates xt
    let output := (output.append_bit (if et then 1 else 0)).getD output
    if et then
      match bit_extract_forward output c.mask.not xt with
      | .error e => .error e
      | .ok o2 =>
        let ct := c.compute_ct_flag vt params.new_mask_flag
        .ok ((o2.append_bit (if ct then 1 else 0)).getD o2)
    else .ok output
  else .ok output

/-- The `q_t` component (optional full-mask refresh) of `compress_packet`. -/
def encodeQt (c : Compressor) (dt : Nat) (params : CompressionParams)
    (output : BitBuffer) : Except PocketError BitBuffer :=
  if dt = 0 then
    if params.send_mask_flag then
      let output := (output.append_bit 1).getD output
      rle_encode output (c.mask.xor c.mask.left_shift)
    else .ok ((output.append_bit 0).getD output)
  else .ok output

/-- The `u_t` component (data payload) of `compress_packet`. -/
def encodeUt (c : Compressor) (input xt : BitVector) (vt dt : Nat)
    (params : CompressionParams) (output : BitBuffer) : Except PocketError BitBuffer :=
  if params.uncompressed_flag then
    let output := (output.append_bit 1).getD output
    match count_encode output c.f with
    | .error e => .error e
    | .ok o2 => .ok ((o2.append_bitvector input).getD o2)
  else
    let output := if dt = 0 then (output.append_bit 0).getD output else output
    let ct := c.compute_ct_flag vt params.new_mask_flag
    if ct ∧ vt > 0 then bit_extract output input (c.mask.or xt)
    else bit_extract output input c.mask

/-- Output framing of `compress_packet` after the state update (step 2 of
the Rust function): builds `h_t ‖ q_t ‖ u_t` via the three stage functions
above, in the exact order of the Rust code. -/
def encodePacketBody (c : Compressor) (input xt : BitVector) (vt : Nat)
    (params : CompressionParams) (output : BitBuffer) : Except PocketError BitBuffer :=
  let dt : Nat := if ¬params.send_mask_flag ∧ ¬params.uncompressed_flag then 1 else 0
  match rle_encode output xt with
  | .error e => .error e
  | .ok o1 =>
    let o1 := (o1.append_value vt 4).getD o1
    match encodeHtTail c xt vt params o1 with
    | .error e => .error e
    | .ok o2 =>
      let o2 := (o2.append_bit dt).getD o2
      match encodeQt c dt params o2 with
      | .error e => .error e
      | .ok o3 => encodeUt c input xt vt dt params o3

/-- `Compressor::compress_packet`.  The Rust function takes `&mut self`; here
the (possibly partially updated, as on a mid-function error) state is
returned alongside the result. -/
def Compressor.compress_packet (c : Compressor) (input : BitVector)
    (params : CompressionParams) : Compressor × Except PocketError BitBuffer :=
  if input.length ≠ c.f then
    (c, .error (.invalidInputLength c.f input.length))
  else
    let c := { c with prev_mask := c.mask }
    let prevBuild := c.build
    let c :=
      if c.t > 0 then
        { c with
          build := update_build c.build input c.prev_input params.new_mask_flag c.t
          mask := update_mask c.mask input c.prev_input prevBuild params.new_mask_flag }
      else c
    let change := compute_change c.mask c.prev_mask c.t
    let c := { c with change_history := c.change_history.set c.history_index change }
    let xt := c.compute_robustness_window change
    let vt := c.compute_effective_robustness
    match encodePacketBody c input xt vt params BitBuffer.new with
    | .error e => (c, .error e)
    | .ok output =>
      let c :=
        { c with
          prev_input := input
          prev_mask := c.mask
          flag_history := c.flag_history.set c.flag_history_index params.new_mask_flag
          flag_history_index := (c.flag_history_index + 1) % maxHistory
          t := c.t + 1
          history_index := (c.history_index + 1) % maxHistory }
      (c, .ok output)

/-- The per-packet control-flag computation of the `compress` loop in
`compress.rs` (including the counter mutation and the bootstrap override for
`i ≤ robustness`). -/
def computeParams (c : Compressor) (i robustness pt_limit ft_limit rt_limit : Nat) :
    CompressionParams × Compressor :=
  if pt_limit > 0 ∧ ft_limit > 0 ∧ rt_limit > 0 then
    if i = 0 then
      (⟨false, true, true⟩, c)
    else
      let (send_mask_flag, c) :=
        if c.ft_counter = 1 then (true, { c with ft_counter := ft_limit })
        else (false, { c with ft_counter := c.ft_counter - 1 })
      let (new_mask_flag, c) :=
        if c.pt_counter = 1 then (true, { c with pt_counter := pt_limit })
        else (false, { c with pt_counter := c.pt_counter - 1 })
      let (uncompressed_flag, c) :=
        if c.rt_counter = 1 then (true, { c with rt_counter := rt_limit })
        else (false, { c with rt_counter := c.rt_counter - 1 })
      if i ≤ robustness then (⟨false, true, true⟩, c)
      else (⟨new_mask_flag, send_mask_flag, uncompressed_flag⟩, c)
  else (⟨false, false, false⟩, c)

/-- Packet loop of `compress`: processes packet indices in order, threading
the compressor state and concatenating each packet's bytes. -/
def compressGo (packet_size packet_bytes robustness pt_limit ft_limit rt_limit : Nat)
    (data : List Nat) : List Nat → Compressor → List Nat →
    Except PocketError (List Nat)
  | [], _, out => .ok out
  | i :: rest, c, out =>
    let packetData := (data.drop (i * packet_bytes)).take packet_bytes
    let input := BitVector.from_bytes packetData packet_size
    let (params, c) := computeParams c i robustness pt_limit ft_limit rt_limit
    let (c, res) := c.compress_packet input params
    match res with
    | .error e => .error e
    | .ok packetOutput =>
      compressGo packet_size packet_bytes robustness pt_limit ft_limit rt_limit
        data rest c (out ++ packetOutput.to_bytes)

/-- `compress` from `compress.rs`. -/
def compress (data : List Nat) (packet_size robustness pt_limit ft_limit rt_limit : Nat) :
    Except PocketError (List Nat) :=
  if packet_size = 0 then .error (.invalidPacketSize packet_size)
  else if packet_size % 8 ≠ 0 then .error (.invalidPacketSize packet_size)
  else if robustness > 7 then .error (.invalidRobustness robustness)
  else
    let packet_bytes := packet_size / 8
    if data.isEmpty then .ok []
    else if data.length % packet_bytes ≠ 0 then
      .error (.invalidInputLength ((data.length / packet_bytes + 1) * packet_bytes)
        data.length)
    else
      let num_packets := data.length / packet_bytes
      match Compressor.new packet_size none robustness pt_limit ft_limit rt_limit with
      | .error e => .error e
      | .ok c =>
        compressGo packet_size packet_bytes robustness pt_limit ft_limit rt_limit
          data (List.range num_packets) c []

/-- Decompressor state from `decompress.rs`. -/
structure Decompressor where
  f : Nat
  robustness : Nat
  mask : BitVector
  initial_mask : BitVector
  prev_output : BitVector
  xt : BitVector
  extraction_mask : BitVector
  t : Nat
deriving Repr

/-- `Decompressor::reset`. -/
def Decompressor.reset (d : Decompressor) : Decompressor :=
  { d with
    t := 0
    mask := d.initial_mask
    prev_output := d.prev_output.zero
    xt := d.xt.zero }

/-- `Decompressor::new`. -/
def Decompressor.new (f : Nat) (initial_mask : Option BitVector) (robustness : Nat) :
    Except PocketError Decompressor :=
  if f = 0 ∨ f > 65535 then .error (.invalidPacketSize f)
  else if robustness > 7 then .error (.invalidRobustness robustness)
  else
    let mask := initial_mask.getD (BitVector.new f)
    .ok (Decompressor.reset
      { f := f
        robustness := robustness
        mask := mask
        initial_mask := mask
        prev_output := BitVector.new f
        xt := BitVector.new f
        extraction_mask := BitVector.new f
        t := 0 })

/-- The `k_t` reading loop of `decompress_packet` (`et = 1` case): for every
set bit of the decoded `X_t`, read one bit; 1 clears the mask bit and records
a positive change, 0 sets the mask bit. -/
def ktUpdateLoop (xtDecoded : BitVector) (f : Nat) :
    BitVector × BitVector × BitReader → Except PocketError (BitVector × BitVector × BitReader) :=
  fun st =>
    (List.range f).foldlM
      (fun (st : BitVector × BitVector × BitReader) i =>
        if xtDecoded.get_bit i ≠ 0 then
          match st.2.2.read_bit with
          | .error e => .error e
          | .ok (kt, r2) =>
            if kt ≠ 0 then .ok ((st.1.set_bit i 0), (st.2.1.set_bit i 1), r2)
            else .ok ((st.1.set_bit i 1), st.2.1, r2)
        else .ok st)
      st

/-- Reversal of the horizontal XOR when a full mask arrives: processes
positions `n - 1, …, 0` (the Rust loop runs `i` from `f - 2` down to 0, so it
is entered with `n = f - 1`), XOR-accumulating into `current`. -/
def hxorGo (maskDiff : BitVector) : Nat → BitVector → Nat → BitVector
  | 0, mask, _ => mask
  | n + 1, mask, current =>
    let hx := maskDiff.get_bit n
    let current2 := current ^^^ hx
    hxorGo maskDiff n (mask.set_bit n current2) current2

/-- The verbatim-packet reading loop of `decompress_packet`: `f` bits into
positions `0, …, f - 1`. -/
def readRawPacket (f : Nat) (output : BitVector) (r : BitReader) :
    Except PocketError (BitVector × BitReader) :=
  (List.range f).foldlM
    (fun (st : BitVector × BitReader) i =>
      match st.2.read_bit with
      | .error e => .error e
      | .ok (bit, r2) => .ok (st.1.set_bit i bit, r2))
    (output, r)

/-- `Decompressor::decompress_packet`.  The Rust method takes `&mut self`;
here the updated state is returned with the decoded packet and reader. -/
def Decompressor.decompress_packet (d : Decompressor) (r : BitReader) :
    Except PocketError (BitVector × Decompressor × BitReader) := do
  let output := d.prev_output
  let d := { d with xt := d.xt.zero }
  let (xtDecoded, r) ← rle_decode r d.f
  let (vt, r) ← r.read_bits 4
  let change_count := xtDecoded.hamming_weight
  let (ct, d, r) ←
    if vt > 0 ∧ change_count > 0 then do
      let (et, r) ← r.read_bit
      if et ≠ 0 then do
        let (mask2, xt2, r) ← ktUpdateLoop xtDecoded d.f (d.mask, d.xt, r)
        let (ctBit, r) ← r.read_bit
        pure (ctBit != 0, { d with mask := mask2, xt := xt2 }, r)
      else
        let mask2 := (List.range d.f).foldl
          (fun m i => if xtDecoded.get_bit i ≠ 0 then m.set_bit i 1 else m) d.mask
        pure (false, { d with mask := mask2 }, r)
    else if vt = 0 ∧ change_count > 0 then
      let mask2 := (List.range d.f).foldl
        (fun m i =>
          if xtDecoded.get_bit i ≠ 0 then
            m.set_bit i (if m.get_bit i = 0 then 1 else 0)
          else m)
        d.mask
      pure (false, { d with mask := mask2 }, r)
    else pure (false, d, r)
  let (dtBit, r) ← r.read_bit
  let dt := dtBit != 0
  let (rt, d, r) ←
    if dt = false then do
      let (ftBit, r) ← r.read_bit
      let (d, r) ←
        if ftBit ≠ 0 then do
          let (maskDiff, r) ← rle_decode r d.f
          let current := maskDiff.get_bit (d.f - 1)
          let mask2 := d.mask.set_bit (d.f - 1) current
          let mask3 := hxorGo maskDiff (d.f - 1) mask2 current
          pure ({ d with mask := mask3 }, r)
        else pure (d, r)
      let (rtBit, r) ← r.read_bit
      pure (rtBit != 0, d, r)
    else pure (false, d, r)
  let (output, d, r) ←
    if rt then do
      let (_packetLength, r) ← count_decode r
      let (output, r) ← readRawPacket d.f output r
      pure (output, d, r)
    else
      if ct ∧ vt > 0 then do
        let em : BitVector := ⟨d.mask.data, d.mask.length⟩
        let em := em.or_assign d.xt
        let (output, r) ← bit_insert r output em
        pure (output, { d with extraction_mask := em }, r)
      else do
        let (output, r) ← bit_insert r output d.mask
        pure (output, d, r)
  let d := { d with prev_output := output, t := d.t + 1 }
  return (output, d, r)

/-- Packet loop of `decompress`: runs until the reader is exhausted.  Each
successful `decompress_packet` consumes at least one bit and the reader is
then byte-aligned, so at least one byte per pass; fuel `|data| + 1` therefore
never runs out, the fuel-0 arm mirroring an (unreachable) underflow. -/
def decompressLoop (fuel : Nat) (d : Decompressor) (r : BitReader) (packet_bytes : Nat)
    (out : List Nat) : Except PocketError (List Nat) :=
  match fuel with
  | 0 => .error .underflow
  | fuel + 1 =>
    if r.remaining = 0 then .ok out
    else
      match d.decompress_packet r with
      | .error e => .error e
      | .ok (packet, d2, r2) =>
        decompressLoop fuel d2 r2.align_byte packet_bytes
          (out ++ packet.to_bytes.take packet_bytes)

/-- `decompress` from `decompress.rs`. -/
def decompress (data : List Nat) (packet_size robustness : Nat) :
    Except PocketError (List Nat) :=
  if packet_size = 0 ∨ packet_size % 8 ≠ 0 then .error (.invalidPacketSize packet_size)
  else if robustness > 7 then .error (.invalidRobustness robustness)
  else if data.isEmpty then .error .unexpectedEndOfInput
  else
    match Decompressor.new packet_size none robustness with
    | .error e => .error e
    | .ok d =>
      let r := BitReader.new data (data.length * 8)
      let packet_bytes := (packet_size + 7) / 8
      decompressLoop (data.length + 1) d r packet_bytes []

/-- Concrete compressor used by the C10 witness. -/
def witnessCompressor : Compressor :=
  { f := 8, robustness := 0, mask := BitVector.new 8, prev_mask := BitVector.new 8,
    build := BitVector.new 8, prev_input := BitVector.new 8,
    initial_mask := BitVector.new 8,
    change_history := List.replicate maxHistory (BitVector.new 8), history_index := 0,
    flag_history := List.replicate maxHistory false, flag_history_index := 0, t := 0,
    pt_limit := 2, ft_limit := 3, rt_limit := 4,
    pt_counter := 2, ft_counter := 3, rt_counter := 4 }

/-- No `invalid_packet_size` error: the property C5 asserts of every result
the encoder pipeline can produce. -/
def NoIPS {α : Type} (x : Except PocketError α) : Prop :=
  ∀ n, x ≠ .error (.invalidPacketSize n)

/-! Basic helper lemmas. -/

/-- A bit vector whose word list has exactly the word count its bit length
calls for (true of every vector the library itself constructs). -/
def BitVector.SizeOk (v : BitVector) : Prop :=
  v.data.length = numWordsFor v.length

lemma shift_land_one (x sh : Nat) :
    (x >>> sh) &&& 1 = if x.testBit sh then 1 else 0 := by
  rw [Nat.and_one_is_mod, Nat.shiftRight_eq_div_pow]
  rcases Nat.mod_two_eq_zero_or_one (x / 2 ^ sh) with h | h <;>
    simp [Nat.testBit_to_div_mod, h]

lemma getD_range_map (f : Nat → Nat) (m wi : Nat) :
    ((List.range m).map f).getD wi 0 = if wi < m then f wi else 0 := by
  by_cases h : wi < m
  · simp [List.getD_eq_getElem?_getD, List.getElem?_map, List.getElem?_range h, h]
  · simp only [List.getD_eq_getElem?_getD, List.getElem?_map]
    rw [List.getElem?_eq_none (by simpa using Nat.le_of_not_lt h)]
    simp [h]

lemma getD_map_zero (l : List Nat) (i : Nat) :
    (l.map (fun _ => 0)).getD i 0 = 0 := by
  induction l generalizing i with
  | nil => simp
  | cons x xs ih => cases i <;> simp [List.getD, ih]

lemma wordIdx_lt {L pos : Nat} (h : pos < L) : pos / 32 < numWordsFor L := by
  unfold numWordsFor; omega

lemma get_bit_testBit (v : BitVector) (pos : Nat) (h : pos < v.length) :
    v.get_bit pos = if (v.data.getD (pos / 32) 0).testBit (31 - pos % 32) then 1 else 0 := by
  rw [BitVector.get_bit, if_neg (by omega), shift_land_one]

lemma get_bit_zero_vec (v : BitVector) (pos : Nat) : v.zero.get_bit pos = 0 := by
  rw [BitVector.get_bit]
  split
  · rfl
  · simp [BitVector.zero, getD_map_zero]

lemma get_bit_xor (a b : BitVector) (hlen : a.length = b.length)
    (ha : a.SizeOk) (hb : b.SizeOk) (pos : Nat) (hpos : pos < a.length) :
    (a.xor b).get_bit pos = a.get_bit pos ^^^ b.get_bit pos := by
  have hxlen : (a.xor b).length = a.length := rfl
  have hwi : pos / 32 < numWordsFor a.length := wordIdx_lt hpos
  have hn : min a.data.length b.data.length = numWordsFor a.length := by
    rw [BitVector.SizeOk] at ha hb
    rw [ha, hb, hlen, Nat.min_self]
  have hword : (a.xor b).data.getD (pos / 32) 0
      = (a.data.getD (pos / 32) 0) ^^^ (b.data.getD (pos / 32) 0) := by
    simp only [BitVector.xor]
    rw [getD_range_map]
    rw [if_pos hwi, if_pos (by rw [hn]; exact hwi)]
  rw [get_bit_testBit _ pos (by rw [hxlen]; exact hpos),
    get_bit_testBit a pos hpos, get_bit_testBit b pos (by omega), hword, Nat.testBit_xor]
  cases h1 : (a.data.getD (pos / 32) 0).testBit (31 - pos % 32) <;>
    cases h2 : (b.data.getD (pos / 32) 0).testBit (31 - pos % 32) <;> simp

lemma get_bit_or (a b : BitVector) (hlen : a.length = b.length)
    (ha : a.SizeOk) (hb : b.SizeOk) (pos : Nat) (hpos : pos < a.length) :
    (a.or b).get_bit pos = a.get_bit pos ||| b.get_bit pos := by
  have hxlen : (a.or b).length = a.length := rfl
  have hwi : pos / 32 < numWordsFor a.length := wordIdx_lt hpos
  have hn : min a.data.length b.data.length = numWordsFor a.length := by
    rw [BitVector.SizeOk] at ha hb
    rw [ha, hb, hlen, Nat.min_self]
  have hword : (a.or b).data.getD (pos / 32) 0
      = (a.data.getD (pos / 32) 0) ||| (b.data.getD (pos / 32) 0) := by
    simp only [BitVector.or]
    rw [getD_range_map]
    rw [if_pos hwi, if_pos (by rw [hn]; exact hwi)]
  rw [get_bit_testBit _ pos (by rw [hxlen]; exact hpos),
    get_bit_testBit a pos hpos, get_bit_testBit b pos (by omega), hword, Nat.testBit_lor]
  cases h1 : (a.data.getD (pos / 32) 0).testBit (31 - pos % 32) <;>
    cases h2 : (b.data.getD (pos / 32) 0).testBit (31 - pos % 32) <;> simp

lemma get_bit_and (a b : BitVector) (hlen : a.length = b.length)
    (ha : a.SizeOk) (hb : b.SizeOk) (pos : Nat) (hpos : pos < a.length) :
    (a.and b).get_bit pos = a.get_bit pos &&& b.get_bit pos := by
  have hxlen : (a.and b).length = a.length := rfl
  have hwi : pos / 32 < numWordsFor a.length := wordIdx_lt hpos
  have hn : min a.data.length b.data.length = numWordsFor a.length := by
    rw [BitVector.SizeOk] at ha hb
    rw [ha, hb, hlen, Nat.min_self]
  have hword : (a.and b).data.getD (pos / 32) 0
      = (a.data.getD (pos / 32) 0) &&& (b.data.getD (pos / 32) 0) := by
    simp only [BitVector.and]
    rw [getD_range_map]
    rw [if_pos hwi, if_pos (by rw [hn]; exact hwi)]
  rw [get_bit_testBit _ pos (by rw [hxlen]; exact hpos),
    get_bit_testBit a pos hpos, get_bit_testBit b pos (by omega), hword, Nat.testBit_land]
  cases h1 : (a.data.getD (pos / 32) 0).testBit (31 - pos % 32) <;>
    cases h2 : (b.data.getD (pos / 32) 0).testBit (31 - pos % 32) <;> simp

lemma xor_sizeOk (a b : BitVector) : (a.xor b).SizeOk := by
  simp [BitVector.SizeOk, BitVector.xor]

lemma xor_length (a b : BitVector) : (a.xor b).length = a.length := rfl

/-! Bit-stream bridging lemmas: reading back the bytes that a bit buffer
packed returns the original bits. -/
lemma testBit_byte : ∀ (b0 b1 b2 b3 b4 b5 b6 b7 : Bool) (r : Nat), r < 8 →
    Nat.testBit (128 * (bif b0 then 1 else 0) + 64 * (bif b1 then 1 else 0)
        + 32 * (bif b2 then 1 else 0) + 16 * (bif b3 then 1 else 0)
        + 8 * (bif b4 then 1 else 0) + 4 * (bif b5 then 1 else 0)
        + 2 * (bif b6 then 1 else 0) + (bif b7 then 1 else 0)) (7 - r)
      = [b0, b1, b2, b3, b4, b5, b6, b7].getD r false := by
  intro b0 b1 b2 b3 b4 b5 b6 b7 r hr
  rcases (by omega : r = 0 ∨ r = 1 ∨ r = 2 ∨ r = 3 ∨ r = 4 ∨ r = 5 ∨ r = 6 ∨ r = 7)
    with hc | hc | hc | hc | hc | hc | hc | hc <;> subst hc <;>
    revert b0 b1 b2 b3 b4 b5 b6 b7 <;> decide

lemma bitAt_toBytes (L : List Bool) (i : Nat) (h : i < L.length) :
    bitAt (BitBuffer.to_bytes ⟨L⟩) i = bitN L i := by
  have hj : i / 8 < (L.length + 7) / 8 := by omega
  have h8 : i % 8 < 8 := by omega
  rw [bitAt]
  show ((((List.range ((L.length + 7) / 8)).map (byteFromBits L)).getD (i / 8) 0)
      >>> (7 - i % 8)) &&& 1 = _
  rw [getD_range_map, if_pos hj, shift_land_one, byteFromBits]
  simp only [bitN]
  have hkey := testBit_byte (L.getD (8 * (i / 8)) false) (L.getD (8 * (i / 8) + 1) false)
    (L.getD (8 * (i / 8) + 2) false) (L.getD (8 * (i / 8) + 3) false)
    (L.getD (8 * (i / 8) + 4) false) (L.getD (8 * (i / 8) + 5) false)
    (L.getD (8 * (i / 8) + 6) false) (L.getD (8 * (i / 8) + 7) false) (i % 8) h8
  simp only [hkey]
  rcases (by omega : i % 8 = 0 ∨ i % 8 = 1 ∨ i % 8 = 2 ∨ i % 8 = 3 ∨ i % 8 = 4 ∨
      i % 8 = 5 ∨ i % 8 = 6 ∨ i % 8 = 7) with hc | hc | hc | hc | hc | hc | hc | hc <;>
    simp only [hc, List.getD_cons_zero, List.getD_cons_succ] <;>
    first
      | (rw [show 8 * (i / 8) = i by omega]; cases L.getD i false <;> rfl)
      | (rw [show 8 * (i / 8) + 1 = i by omega]; cases L.getD i false <;> rfl)
      | (rw [show 8 * (i / 8) + 2 = i by omega]; cases L.getD i false <;> rfl)
      | (rw [show 8 * (i / 8) + 3 = i by omega]; cases L.getD i false <;> rfl)
      | (rw [show 8 * (i / 8) + 4 = i by omega]; cases L.getD i false <;> rfl)
      | (rw [show 8 * (i / 8) + 5 = i by omega]; cases L.getD i false <;> rfl)
      | (rw [show 8 * (i / 8) + 6 = i by omega]; cases L.getD i false <;> rfl)
      | (rw [show 8 * (i / 8) + 7 = i by omega]; cases L.getD i false <;> rfl)

/-! Bit-reader evaluation lemmas over packed buffers. -/

lemma read_bit_spec (L : List Bool) (p : Nat) (h : p < L.length) :
    BitReader.read_bit ⟨BitBuffer.to_bytes ⟨L⟩, L.length, p⟩
      = .ok (bitN L p, ⟨BitBuffer.to_bytes ⟨L⟩, L.length, p + 1⟩) := by
  rw [BitReader.read_bit]
  simp only []
  rw [if_neg (by simp; omega), bitAt_toBytes L p h]

lemma back_spec (d : List Nat) (n p : Nat) (h : 0 < p) :
    BitReader.back ⟨d, n, p⟩ = .ok ⟨d, n, p - 1⟩ := by
  rw [BitReader.back]
  simp only []
  rw [if_neg (by omega)]

lemma foldl_congr_mem {α β : Type} (l : List α) (f g : β → α → β) (a : β)
    (h : ∀ acc x, x ∈ l → f acc x = g acc x) : l.foldl f a = l.foldl g a := by
  induction l generalizing a with
  | nil => rfl
  | cons x xs ih =>
    rw [List.foldl_cons, List.foldl_cons, h a x (by simp)]
    exact ih _ (fun acc y hy => h acc y (by simp [hy]))

lemma valOfBits_acc : ∀ (bs : List Bool) (a : Nat),
    bs.foldl (fun acc b => 2 * acc + (bif b then 1 else 0)) a
      = a * 2 ^ bs.length + valOfBits bs := by
  intro bs
  induction bs with
  | nil => intro a; simp [valOfBits]
  | cons b bs ih =>
    intro a
    rw [List.foldl_cons, ih]
    have h2 : valOfBits (b :: bs) = (bif b then 1 else 0) * 2 ^ bs.length + valOfBits bs := by
      rw [valOfBits, List.foldl_cons, ih]
      simp
    rw [h2]
    simp [List.length_cons, pow_succ]
    ring

lemma bitsBE_length (n v : Nat) : (bitsBE n v).length = n := by simp [bitsBE]

lemma bitsBE_getD (n v k : Nat) (h : k < n) :
    (bitsBE n v).getD k false = v.testBit (n - 1 - k) := by
  simp only [bitsBE, List.getD_eq_getElem?_getD, List.getElem?_map, List.getElem?_range h]
  rfl

lemma bitsBE_succ (n v : Nat) : bitsBE (n + 1) v = v.testBit n :: bitsBE n v := by
  have hf : bitsBE (n + 1) v
      = v.testBit n :: List.map ((fun k => v.testBit (n + 1 - 1 - k)) ∘ Nat.succ)
          (List.range n) := by
    rw [bitsBE, List.range_succ_eq_map, List.map_cons, List.map_map]
    simp
  rw [hf, bitsBE]
  congr 1
  apply List.map_congr_left
  intro k _
  simp only [Function.comp]
  congr 1
  omega

lemma valOfBits_bitsBE (n v : Nat) : valOfBits (bitsBE n v) = v % 2 ^ n := by
  induction n with
  | zero => simp [valOfBits, bitsBE, Nat.mod_one]
  | succ n ih =>
    rw [bitsBE_succ, valOfBits, List.foldl_cons, valOfBits_acc, bitsBE_length, ih]
    have hmod : v % 2 ^ (n + 1) = v % 2 ^ n + 2 ^ n * (v / 2 ^ n % 2) := by
      rw [pow_succ, Nat.mod_mul]
    have hbit : (bif v.testBit n then 1 else 0) = v / 2 ^ n % 2 := by
      rcases Nat.mod_two_eq_zero_or_one (v / 2 ^ n) with h | h <;>
        simp [Nat.testBit_to_div_mod, h]
    rw [hmod, hbit]
    ring

lemma readValAt_spec (L : List Bool) (p n v : Nat) (hlen : p + n ≤ L.length)
    (hbits : ∀ k, k < n → L.getD (p + k) false = v.testBit (n - 1 - k)) :
    readValAt (BitBuffer.to_bytes ⟨L⟩) p n = v % 2 ^ n := by
  rw [readValAt]
  have h1 : (List.range n).foldl (fun a k => 2 * a + bitAt (BitBuffer.to_bytes ⟨L⟩) (p + k)) 0
      = (List.range n).foldl (fun a k => 2 * a + (bif v.testBit (n - 1 - k) then 1 else 0)) 0 := by
    apply foldl_congr_mem
    intro acc k hk
    rw [bitAt_toBytes L (p + k) (by simp only [List.mem_range] at hk; omega), bitN,
      hbits k (by simpa using hk)]
  rw [h1]
  have h2 : (List.range n).foldl
        (fun a k => 2 * a + (bif v.testBit (n - 1 - k) then 1 else 0)) 0
      = valOfBits (bitsBE n v) := by
    rw [valOfBits, bitsBE, List.foldl_map]
  rw [h2, valOfBits_bitsBE]

lemma read_bits_spec (L : List Bool) (p n v : Nat) (h1 : 1 ≤ n) (h2 : n ≤ 32)
    (hlen : p + n ≤ L.length) (hv : v < 2 ^ n)
    (hbits : ∀ k, k < n → L.getD (p + k) false = v.testBit (n - 1 - k)) :
    BitReader.read_bits ⟨BitBuffer.to_bytes ⟨L⟩, L.length, p⟩ n
      = .ok (v, ⟨BitBuffer.to_bytes ⟨L⟩, L.length, p + n⟩) := by
  rw [BitReader.read_bits]
  simp only []
  rw [if_neg (by omega), if_neg (by simp only [BitReader.remaining]; omega)]
  rw [readValAt_spec L p n v hlen hbits, Nat.mod_eq_of_lt hv]

lemma countZerosLoop_spec (L : List Bool) : ∀ (z p size fuel : Nat),
    z + 1 ≤ fuel → p + z < L.length →
    (∀ k, k < z → L.getD (p + k) false = false) →
    L.getD (p + z) false = true →
    countZerosLoop fuel ⟨BitBuffer.to_bytes ⟨L⟩, L.length, p⟩ size
      = .ok (size + z + 1, ⟨BitBuffer.to_bytes ⟨L⟩, L.length, p + z + 1⟩) := by
  intro z
  induction z with
  | zero =>
    intro p size fuel hfuel hplen hz h1
    obtain ⟨f, rfl⟩ : ∃ f, fuel = f + 1 := ⟨fuel - 1, by omega⟩
    simp only [countZerosLoop]
    rw [read_bit_spec L p (by omega)]
    simp only []
    have hb : bitN L p = 1 := by
      have h1p : L.getD p false = true := by simpa using h1
      rw [bitN, h1p]
      rfl
    rw [hb]
    simp
  | succ z ih =>
    intro p size fuel hfuel hplen hz h1
    obtain ⟨f, rfl⟩ : ∃ f, fuel = f + 1 := ⟨fuel - 1, by omega⟩
    simp only [countZerosLoop]
    rw [read_bit_spec L p (by omega)]
    simp only []
    have hb : bitN L p = 0 := by
      have h0 : L.getD p false = false := by simpa using hz 0 (by omega)
      rw [bitN, h0]
      rfl
    rw [hb]
    rw [if_neg (by omega)]
    have harg1 : ∀ k, k < z → L.getD (p + 1 + k) false = false := by
      intro k hk
      have h := hz (k + 1) (by omega)
      rw [show p + 1 + k = p + (k + 1) by omega]
      exact h
    have harg2 : L.getD (p + 1 + z) false = true := by
      rw [show p + 1 + z = p + (z + 1) by omega]
      exact h1
    have hres := ih (p + 1) (size + 1) f (by omega) (by omega) harg1 harg2
    rw [hres, show size + 1 + z + 1 = size + (z + 1) + 1 by omega,
      show p + 1 + z + 1 = p + (z + 1) + 1 by omega]

lemma countValues_getD : ∀ a : Fin 34, 2 ≤ a.val → countValues.getD a.val 0 = 192 + (a.val - 2) := by
  decide

lemma count_encode_eval_small (A : Nat) (h2 : 2 ≤ A) (h33 : A ≤ 33) :
    count_encode BitBuffer.new A = .ok ⟨bitsBE 8 (192 + (A - 2))⟩ := by
  rw [count_encode, if_neg (by omega), if_neg (by omega), if_pos (by omega)]
  have hc : countValues.getD A 0 = 192 + (A - 2) := countValues_getD ⟨A, by omega⟩ h2
  rw [hc]
  have happ : BitBuffer.append_value BitBuffer.new (192 + (A - 2)) 8
      = some ⟨bitsBE 8 (192 + (A - 2))⟩ := by
    rw [BitBuffer.append_value, if_neg (by norm_num),
      if_neg (by norm_num [BitBuffer.new, BitBuffer.len, maxOutputBytes])]
    simp [BitBuffer.new]
  rw [happ]

lemma count_encode_eval_large (A : Nat) (h34 : 34 ≤ A) (hm : A ≤ 65535) :
    count_encode BitBuffer.new A
      = .ok ⟨bitsBE 3 7 ++ bitsBE (2 * (Nat.log2 (A - 2) + 1) - 6) (A - 2)⟩ := by
  have hlog5 : 5 ≤ Nat.log2 (A - 2) := by
    rw [Nat.le_log2 (by omega)]
    omega
  have hlog15 : Nat.log2 (A - 2) ≤ 15 := by
    have h := (Nat.log2_lt (show A - 2 ≠ 0 by omega)).mpr (show A - 2 < 2 ^ 16 by omega)
    omega
  rw [count_encode, if_neg (by omega), if_neg (by omega), if_neg (by omega)]
  have happ1 : BitBuffer.append_value BitBuffer.new 7 3 = some ⟨bitsBE 3 7⟩ := by
    rw [BitBuffer.append_value, if_neg (by norm_num),
      if_neg (by norm_num [BitBuffer.new, BitBuffer.len, maxOutputBytes])]
    simp [BitBuffer.new]
  rw [happ1]
  simp only []
  have happ2 : BitBuffer.append_value ⟨bitsBE 3 7⟩ (A - 2) (2 * (Nat.log2 (A - 2) + 1) - 6)
      = some ⟨bitsBE 3 7 ++ bitsBE (2 * (Nat.log2 (A - 2) + 1) - 6) (A - 2)⟩ := by
    rw [BitBuffer.append_value, if_neg (by omega),
      if_neg (by simp only [bitsBE_length, maxOutputBytes]; omega)]
  rw [happ2]


lemma count_roundtrip_core (A : Nat) (h1 : 1 ≤ A) (h2 : A ≤ 65535) :
    ∃ L : List Bool,
      count_encode BitBuffer.new A = .ok ⟨L⟩ ∧
      count_decode (BitReader.new (BitBuffer.to_bytes ⟨L⟩) L.length)
        = .ok (A, ⟨BitBuffer.to_bytes ⟨L⟩, L.length, L.length⟩) := by
  rcases (by omega : A = 1 ∨ (2 ≤ A ∧ A ≤ 33) ∨ 34 ≤ A) with hA | ⟨hA2, hA33⟩ | hA
  · subst hA
    exact ⟨[false], rfl, rfl⟩
  · interval_cases A <;> exact ⟨_, rfl, rfl⟩
  · -- large branch
    have hv32 : 32 ≤ A - 2 := by omega
    have hlog5 : 5 ≤ Nat.log2 (A - 2) := by
      rw [Nat.le_log2 (by omega)]
      omega
    have hlog15 : Nat.log2 (A - 2) ≤ 15 := by
      have h := (Nat.log2_lt (show A - 2 ≠ 0 by omega)).mpr (show A - 2 < 2 ^ 16 by omega)
      omega
    have hge : 2 ^ Nat.log2 (A - 2) ≤ A - 2 := Nat.log2_self_le (by omega)
    have hlt : A - 2 < 2 ^ (Nat.log2 (A - 2) + 1) := Nat.lt_log2_self
    refine ⟨true :: true :: true
        :: bitsBE (2 * (Nat.log2 (A - 2) + 1) - 6) (A - 2), ?_, ?_⟩
    · exact count_encode_eval_large A hA h2
    · generalize hbv : Nat.log2 (A - 2) = hb at *
      generalize hLv : (true :: true :: true
        :: bitsBE (2 * (hb + 1) - 6) (A - 2) : List Bool) = L
      have hLlen : L.length = 3 + (2 * (hb + 1) - 6) := by
        rw [← hLv]
        simp [bitsBE_length]
        omega
      have hgetD3 : ∀ k, L.getD (3 + k) false = (bitsBE (2 * (hb + 1) - 6) (A - 2)).getD k false := by
        intro k
        rw [← hLv, show 3 + k = k + 1 + 1 + 1 by omega]
        simp [List.getD_cons_succ]
      have hzeros : ∀ k, k < hb - 5 → L.getD (3 + k) false = false := by
        intro k hk
        rw [hgetD3 k, bitsBE_getD _ _ _ (by omega)]
        apply Nat.testBit_eq_false_of_lt
        calc A - 2 < 2 ^ (hb + 1) := hlt
        _ ≤ 2 ^ (2 * (hb + 1) - 6 - 1 - k) := Nat.pow_le_pow_right (by omega) (by omega)
      have hone : L.getD (3 + (hb - 5)) false = true := by
        rw [hgetD3 _, bitsBE_getD _ _ _ (by omega),
          show 2 * (hb + 1) - 6 - 1 - (hb - 5) = hb by omega]
        have hdiv : (A - 2) / 2 ^ hb = 1 :=
          Nat.div_eq_of_lt_le (by omega) (by omega)
        simp [Nat.testBit_to_div_mod, hdiv]
      have hvalbits : ∀ k, k < hb + 1 →
          L.getD (3 + (hb - 5) + k) false = (A - 2).testBit (hb + 1 - 1 - k) := by
        intro k hk
        rw [show 3 + (hb - 5) + k = 3 + (hb - 5 + k) by omega, hgetD3 _,
          bitsBE_getD _ _ _ (by omega),
          show 2 * (hb + 1) - 6 - 1 - (hb - 5 + k) = hb - k by omega,
          show hb + 1 - 1 - k = hb - k by omega]
      rw [count_decode, BitReader.new]
      rw [read_bit_spec L 0 (by omega)]
      simp only []
      rw [show bitN L 0 = 1 from by rw [bitN, ← hLv]; rfl, if_neg (by omega)]
      rw [read_bit_spec L 1 (by omega)]
      simp only []
      rw [show bitN L 1 = 1 from by rw [bitN, ← hLv]; rfl, if_neg (by omega)]
      rw [read_bit_spec L 2 (by omega)]
      simp only []
      rw [show bitN L 2 = 1 from by rw [bitN, ← hLv]; rfl, if_neg (by omega)]
      rw [show BitReader.remaining ⟨BitBuffer.to_bytes ⟨L⟩, L.length, 3⟩
          = 2 * (hb + 1) - 6 from by simp only [BitReader.remaining]; omega]
      rw [countZerosLoop_spec L (hb - 5) 3 0 (2 * (hb + 1) - 6 + 1)
        (by omega) (by omega) hzeros hone]
      simp only []
      rw [back_spec _ _ _ (by omega)]
      simp only []
      rw [show 0 + (hb - 5) + 1 + 5 = hb + 1 by omega,
        show 3 + (hb - 5) + 1 - 1 = 3 + (hb - 5) by omega]
      rw [read_bits_spec L (3 + (hb - 5)) (hb + 1) (A - 2) (by omega) (by omega)
        (by omega) hlt hvalbits]
      simp only []
      rw [show A - 2 + 2 = A by omega, show 3 + (hb - 5) + (hb + 1) = L.length by omega]


lemma bitAt_le_one (d : List Nat) (i : Nat) : bitAt d i ≤ 1 := by
  rw [bitAt, Nat.and_one_is_mod]
  omega

lemma read_bit_err (r : BitReader) (e : PocketError) (h : r.read_bit = .error e) :
    e = .underflow := by
  rw [BitReader.read_bit] at h
  split at h
  · exact (Except.error.inj h).symm
  · exact absurd h (by simp)

lemma read_bits_err (r : BitReader) (n : Nat) (e : PocketError)
    (h : r.read_bits n = .error e) : e = .underflow ∨ e = .invalidLength := by
  rw [BitReader.read_bits] at h
  split at h
  · exact Or.inr (Except.error.inj h).symm
  · split at h
    · exact Or.inl (Except.error.inj h).symm
    · exact absurd h (by simp)

lemma back_err (r : BitReader) (e : PocketError) (h : r.back = .error e) :
    e = .underflow := by
  rw [BitReader.back] at h
  split at h
  · exact (Except.error.inj h).symm
  · exact absurd h (by simp)

lemma countZerosLoop_err : ∀ (fuel : Nat) (r : BitReader) (size : Nat) (e : PocketError),
    countZerosLoop fuel r size = .error e → e = .underflow := by
  intro fuel
  induction fuel with
  | zero =>
    intro r size e h
    exact (Except.error.inj h).symm
  | succ fuel ih =>
    intro r size e h
    simp only [countZerosLoop] at h
    rcases hr : r.read_bit with ee | vv
    · rw [hr] at h
      simp only [] at h
      exact (Except.error.inj h).symm ▸ read_bit_err r ee hr
    · rw [hr] at h
      obtain ⟨b, r2⟩ := vv
      simp only [] at h
      split at h
      · exact absurd h (by simp)
      · exact ih r2 (size + 1) e h

lemma count_decode_err (r : BitReader) (e : PocketError)
    (h : count_decode r = .error e) : e = .underflow ∨ e = .invalidLength := by
  rw [count_decode] at h
  rcases h0 : r.read_bit with e0 | v0
  · rw [h0] at h
    simp only [] at h
    exact Or.inl ((Except.error.inj h).symm ▸ read_bit_err r e0 h0)
  · rw [h0] at h
    obtain ⟨b0, r0⟩ := v0
    simp only [] at h
    split at h
    · exact absurd h (by simp)
    · rcases h1 : r0.read_bit with e1 | v1
      · rw [h1] at h
        simp only [] at h
        exact Or.inl ((Except.error.inj h).symm ▸ read_bit_err r0 e1 h1)
      · rw [h1] at h
        obtain ⟨b1, r1⟩ := v1
        simp only [] at h
        split at h
        · exact absurd h (by simp)
        · rcases h2 : r1.read_bit with e2 | v2
          · rw [h2] at h
            simp only [] at h
            exact Or.inl ((Except.error.inj h).symm ▸ read_bit_err r1 e2 h2)
          · rw [h2] at h
            obtain ⟨b2, r2⟩ := v2
            simp only [] at h
            split at h
            · rcases h3 : r2.read_bits 5 with e3 | v3
              · rw [h3] at h
                simp only [] at h
                exact (Except.error.inj h).symm ▸ read_bits_err r2 5 e3 h3
              · rw [h3] at h
                obtain ⟨raw, r3⟩ := v3
                exact absurd h (by simp)
            · rcases h3 : countZerosLoop (r2.remaining + 1) r2 0 with e3 | v3
              · rw [h3] at h
                simp only [] at h
                exact Or.inl ((Except.error.inj h).symm ▸
                  countZerosLoop_err (r2.remaining + 1) r2 0 e3 h3)
              · rw [h3] at h
                obtain ⟨size, r3⟩ := v3
                simp only [] at h
                rcases h4 : r3.back with e4 | r4
                · rw [h4] at h
                  simp only [] at h
                  exact Or.inl ((Except.error.inj h).symm ▸ back_err r3 e4 h4)
                · rw [h4] at h
                  simp only [] at h
                  rcases h5 : r4.read_bits (size + 5) with e5 | v5
                  · rw [h5] at h
                    simp only [] at h
                    exact (Except.error.inj h).symm ▸ read_bits_err r4 (size + 5) e5 h5
                  · rw [h5] at h
                    obtain ⟨raw, r5⟩ := v5
                    exact absurd h (by simp)

lemma rleDecodeLoop_err : ∀ (fuel : Nat) (r : BitReader) (res : BitVector)
    (pos : Nat) (e : PocketError),
    rleDecodeLoop fuel r res pos = .error e → e = .underflow ∨ e = .invalidLength := by
  intro fuel
  induction fuel with
  | zero =>
    intro r res pos e h
    exact Or.inl (Except.error.inj h).symm
  | succ fuel ih =>
    intro r res pos e h
    simp only [rleDecodeLoop] at h
    rcases hr : count_decode r with ee | vv
    · rw [hr] at h
      simp only [] at h
      exact (Except.error.inj h).symm ▸ count_decode_err r ee hr
    · rw [hr] at h
      obtain ⟨delta, r2⟩ := vv
      simp only [] at h
      split at h
      · exact absurd h (by simp)
      · split at h
        · exact ih r2 _ _ e h
        · exact ih r2 _ _ e h

lemma noIPS_ok {α : Type} (a : α) : NoIPS (.ok a) := by
  intro n h
  simp at h

lemma count_encode_not_ips (o : BitBuffer) (a : Nat) : NoIPS (count_encode o a) := by
  intro n h
  rw [count_encode] at h
  split at h
  · simp at h
  · split at h
    · rcases ho : o.append_bit 0 with _ | o2 <;> rw [ho] at h <;> simp at h
    · split at h
      · rcases ho : o.append_value (countValues.getD a 0) 8 with _ | o2 <;>
          rw [ho] at h <;> simp at h
      · rcases ho : o.append_value 7 3 with _ | o2 <;> rw [ho] at h
        · simp at h
        · simp only [] at h
          rcases ho2 : o2.append_value (a - 2) (2 * (Nat.log2 (a - 2) + 1) - 6)
              with _ | o3 <;> rw [ho2] at h <;> simp at h

lemma rleWordLoop_not_ips : ∀ (fuel : Nat) (o : BitBuffer) (wi op wd : Nat),
    NoIPS (rleWordLoop fuel o wi op wd) := by
  intro fuel
  induction fuel with
  | zero => intro o wi op wd n h; simp [rleWordLoop] at h
  | succ fuel ih =>
    intro o wi op wd n h
    simp only [rleWordLoop] at h
    split at h
    · simp at h
    · rcases hc : count_encode o (op - (wi * 32 + debruijnPos (wd &&& wrapNeg wd)))
          with e | o2 <;> rw [hc] at h <;> simp only [] at h
      · have he := Except.error.inj h
        exact count_encode_not_ips o _ n (he ▸ hc)
      · exact ih o2 wi _ _ n h

lemma foldlM_not_ips {α β : Type} (f : β → α → Except PocketError β)
    (hf : ∀ acc x, NoIPS (f acc x)) :
    ∀ (l : List α) (init : β), NoIPS (l.foldlM f init) := by
  intro l
  induction l with
  | nil => intro init; simp only [List.foldlM_nil]; exact noIPS_ok init
  | cons x xs ih =>
    intro init
    simp only [List.foldlM_cons]
    intro n h
    rcases hfx : f init x with e | a <;> rw [hfx] at h
    · rw [show ((Except.error e : Except PocketError β) >>= fun b => xs.foldlM f b)
          = (.error e : Except PocketError β) from rfl] at h
      have he := Except.error.inj h
      exact hf init x n (he ▸ hfx)
    · rw [show ((Except.ok a : Except PocketError β) >>= fun b => xs.foldlM f b)
          = xs.foldlM f a from rfl] at h
      exact ih a n h

lemma rle_encode_not_ips (o : BitBuffer) (v : BitVector) : NoIPS (rle_encode o v) := by
  intro n h
  rw [rle_encode] at h
  rcases hs : (List.range v.data.length).reverse.foldlM
      (fun (st : BitBuffer × Nat) wi => rleWordLoop 32 st.1 wi st.2 (v.data.getD wi 0))
      (o, v.length) with e | st <;> rw [hs] at h
  · simp only [] at h
    have he := Except.error.inj h
    exact foldlM_not_ips _ (fun st wi => rleWordLoop_not_ips 32 st.1 wi st.2 _) _ _ n
      (he ▸ hs)
  · obtain ⟨o2, p⟩ := st
    simp only [] at h
    rcases ho : o2.append_value 2 2 with _ | o3 <;> rw [ho] at h <;> simp at h

lemma beWordLoop_not_ips : ∀ (fuel : Nat) (o : BitBuffer) (wi len dw mw : Nat),
    NoIPS (beWordLoop fuel o wi len dw mw) := by
  intro fuel
  induction fuel with
  | zero => intro o wi len dw mw n h; simp [beWordLoop] at h
  | succ fuel ih =>
    intro o wi len dw mw n h
    simp only [beWordLoop] at h
    split at h
    · simp at h
    · split at h
      · rcases ho : o.append_bit _ with _ | o2 <;> rw [ho] at h
        · simp at h
        · simp only [] at h
          exact ih o2 wi len dw _ n h
      · exact ih o wi len dw _ n h

lemma bit_extract_not_ips (o : BitBuffer) (d m : BitVector) :
    NoIPS (bit_extract o d m) := by
  intro n h
  rw [bit_extract] at h
  split at h
  · simp at h
  · exact foldlM_not_ips _ (fun acc wi => beWordLoop_not_ips 32 acc wi _ _ _) _ _ n h

lemma befWordLoop_not_ips : ∀ (fuel : Nat) (o : BitBuffer) (wi len dw mw : Nat),
    NoIPS (befWordLoop fuel o wi len dw mw) := by
  intro fuel
  induction fuel with
  | zero => intro o wi len dw mw n h; simp [befWordLoop] at h
  | succ fuel ih =>
    intro o wi len dw mw n h
    simp only [befWordLoop] at h
    split at h
    · simp at h
    · split at h
      · rcases ho : o.append_bit _ with _ | o2 <;> rw [ho] at h
        · simp at h
        · simp only [] at h
          exact ih o2 wi len dw _ n h
      · exact ih o wi len dw _ n h

lemma bit_extract_forward_not_ips (o : BitBuffer) (d m : BitVector) :
    NoIPS (bit_extract_forward o d m) := by
  intro n h
  rw [bit_extract_forward] at h
  split at h
  · simp at h
  · exact foldlM_not_ips _ (fun acc wi => befWordLoop_not_ips 32 acc wi _ _ _) _ _ n h

lemma encodeHtTail_not_ips (c : Compressor) (xt : BitVector) (vt : Nat)
    (params : CompressionParams) (o : BitBuffer) :
    NoIPS (encodeHtTail c xt vt params o) := by
  intro n h
  rw [encodeHtTail] at h
  split at h
  · try dsimp only [] at h
    split at h
    · split at h
      · rename_i e heq
        have he := Except.error.inj h
        exact bit_extract_forward_not_ips _ _ _ n (he ▸ heq)
      · simp at h
    · simp at h
  · simp at h

lemma encodeQt_not_ips (c : Compressor) (dt : Nat) (params : CompressionParams)
    (o : BitBuffer) : NoIPS (encodeQt c dt params o) := by
  intro n h
  rw [encodeQt] at h
  split at h
  · split at h
    · exact rle_encode_not_ips _ _ n h
    · simp at h
  · simp at h

lemma encodeUt_not_ips (c : Compressor) (input xt : BitVector) (vt dt : Nat)
    (params : CompressionParams) (o : BitBuffer) :
    NoIPS (encodeUt c input xt vt dt params o) := by
  intro n h
  rw [encodeUt] at h
  split at h
  · try dsimp only [] at h
    split at h
    · rename_i e heq
      have he := Except.error.inj h
      exact count_encode_not_ips _ _ n (he ▸ heq)
    · simp at h
  · try dsimp only [] at h
    split at h <;> split at h <;> exact bit_extract_not_ips _ _ _ n h

lemma encodePacketBody_not_ips (c : Compressor) (input xt : BitVector) (vt : Nat)
    (params : CompressionParams) (o : BitBuffer) :
    NoIPS (encodePacketBody c input xt vt params o) := by
  intro n h
  rw [encodePacketBody] at h
  try dsimp only [] at h
  by_cases hdt : ¬params.send_mask_flag = true ∧ ¬params.uncompressed_flag = true <;>
    [rw [if_pos hdt] at h; rw [if_neg hdt] at h] <;>
  · split at h
    · rename_i e heq
      have he := Except.error.inj h
      exact rle_encode_not_ips _ _ n (he ▸ heq)
    · try dsimp only [] at h
      split at h
      · rename_i e heq
        have he := Except.error.inj h
        exact encodeHtTail_not_ips _ _ _ _ _ n (he ▸ heq)
      · try dsimp only [] at h
        split at h
        · rename_i e heq
          have he := Except.error.inj h
          exact encodeQt_not_ips _ _ _ _ n (he ▸ heq)
        · exact encodeUt_not_ips _ _ _ _ _ _ _ n h

lemma compress_packet_not_ips (c : Compressor) (input : BitVector)
    (params : CompressionParams) : NoIPS (c.compress_packet input params).2 := by
  intro n h
  rw [Compressor.compress_packet] at h
  split at h
  · simp at h
  · try dsimp only [] at h
    split at h
    · rename_i e heq
      try dsimp only [] at h
      have he := Except.error.inj h
      exact encodePacketBody_not_ips _ input _ _ params BitBuffer.new n (he ▸ heq)
    · try dsimp only [] at h
      simp at h

lemma compressGo_not_ips (ps pb rb pt ft rt : Nat) (data : List Nat) :
    ∀ (idxs : List Nat) (c : Compressor) (out : List Nat),
      NoIPS (compressGo ps pb rb pt ft rt data idxs c out) := by
  intro idxs
  induction idxs with
  | nil => intro c out; exact noIPS_ok _
  | cons i rest ih =>
    intro c out n h
    rcases hcp : computeParams c i rb pt ft rt with ⟨params, c2⟩
    rcases hpk : c2.compress_packet (BitVector.from_bytes
        ((data.drop (i * pb)).take pb) ps) params with ⟨c3, res⟩
    rw [compressGo, hcp] at h
    try dsimp only [] at h
    rw [hpk] at h
    try dsimp only [] at h
    rcases res with e | po
    · try dsimp only [] at h
      have he := Except.error.inj h
      have hni := compress_packet_not_ips c2 (BitVector.from_bytes
        ((data.drop (i * pb)).take pb) ps) params
      rw [hpk] at hni
      exact hni n (by dsimp only []; rw [he])
    · try dsimp only [] at h
      exact ih c3 _ n h

/-! Claim theorems. -/

/-- C10: if `compress_packet` is called with an input whose length differs
from the compressor's `F`, it returns `InvalidInputLength` and the entire
compressor state is unchanged (the length check precedes all mutation). -/
theorem compress_packet_length_guard (c : Compressor) (input : BitVector)
    (params : CompressionParams) (h : input.length ≠ c.f) :
    c.compress_packet input params
      = (c, .error (.invalidInputLength c.f input.length)) := by
  rw [Compressor.compress_packet, if_pos h]

/-- Witness for C10 at a concrete compressor and a 16-bit input. -/
theorem compress_packet_length_guard_witness :
    witnessCompressor.compress_packet (BitVector.new 16) ⟨false, true, true⟩
      = (witnessCompressor, .error (.invalidInputLength 8 16)) :=
  compress_packet_length_guard witnessCompressor (BitVector.new 16)
    ⟨false, true, true⟩ (by decide)

/-- C8: out-of-range `get_bit` returns 0 and out-of-range `set_bit` leaves
the vector unchanged; and for an in-range position of a well-sized vector the
accessed word index is within the backing storage. -/
theorem get_set_bit_out_of_range :
    (∀ (v : BitVector) (pos value : Nat), v.length ≤ pos →
        v.get_bit pos = 0 ∧ v.set_bit pos value = v) ∧
    (∀ (v : BitVector) (pos : Nat), v.SizeOk → pos < v.length →
        pos / 32 < v.data.length) := by
  constructor
  · intro v pos value h
    constructor
    · rw [BitVector.get_bit, if_pos (by omega)]
    · rw [BitVector.set_bit, if_pos (by omega)]
  · intro v pos hs h
    rw [BitVector.SizeOk] at hs
    rw [hs]
    exact wordIdx_lt h

/-- Witness for C8 at an 8-bit vector, position 9 (out of range) and
position 5 (in range). -/
theorem get_set_bit_out_of_range_witness :
    ((BitVector.new 8).get_bit 9 = 0 ∧ (BitVector.new 8).set_bit 9 1 = BitVector.new 8) ∧
      5 / 32 < (BitVector.new 8).data.length :=
  ⟨get_set_bit_out_of_range.1 (BitVector.new 8) 9 1 (by decide),
   get_set_bit_out_of_range.2 (BitVector.new 8) 5 rfl (by decide)⟩

/-- C6: with valid parameters, `compress` of an empty buffer returns the
empty byte vector and `decompress` of an empty buffer fails with
`unexpected_end_of_input`. -/
theorem compress_decompress_empty (ps r p f rr : Nat)
    (h8 : ps % 8 = 0) (h0 : 0 < ps) (hr : r ≤ 7) :
    compress [] ps r p f rr = .ok [] ∧
      decompress [] ps r = .error .unexpectedEndOfInput := by
  constructor
  · rw [compress, if_neg (by omega), if_neg (by omega), if_neg (by omega)]
    simp
  · rw [decompress, if_neg (by omega), if_neg (by omega)]
    simp

/-- Witness for C6 at packet size 8, robustness 0, limits (1, 1, 1). -/
theorem compress_decompress_empty_witness :
    compress [] 8 0 1 1 1 = .ok [] ∧
      decompress [] 8 0 = .error .unexpectedEndOfInput :=
  compress_decompress_empty 8 0 1 1 1 (by decide) (by decide) (by decide)

/-- C3: bitwise characterisation of the build and mask updates.  The build
update yields the all-zero vector at `t = 0` or when the new-mask flag is
set, and `(I_t ⊕ I_{t-1}) ∨ B_{t-1}` otherwise; the mask update yields
`(I_t ⊕ I_{t-1}) ∨ B_{t-1}` when the flag is set and
`(I_t ⊕ I_{t-1}) ∨ M_{t-1}` otherwise. -/
theorem mask_kernel_update_equations
    (input prev_input build mask build_prev : BitVector) (flag : Bool) (t : Nat)
    (hlen1 : input.length = prev_input.length)
    (hlen2 : input.length = build.length)
    (hlen3 : input.length = mask.length)
    (hlen4 : input.length = build_prev.length)
    (hin : input.SizeOk) (hprev : prev_input.SizeOk) (hbuild : build.SizeOk)
    (hmask : mask.SizeOk) (hbp : build_prev.SizeOk)
    (pos : Nat) (hpos : pos < input.length) :
    (update_build build input prev_input flag t).get_bit pos
        = (if t = 0 ∨ flag = true then 0
           else (input.get_bit pos ^^^ prev_input.get_bit pos) ||| build.get_bit pos) ∧
    (update_mask mask input prev_input build_prev flag).get_bit pos
        = ((input.get_bit pos ^^^ prev_input.get_bit pos) |||
           (if flag = true then build_prev.get_bit pos else mask.get_bit pos)) := by
  constructor
  · rw [update_build]
    by_cases hc : t = 0 ∨ flag = true
    · rw [if_pos hc, if_pos hc, get_bit_zero_vec]
    · rw [if_neg hc, if_neg hc]
      rw [get_bit_or (input.xor prev_input) build (by rw [xor_length]; omega)
        (xor_sizeOk _ _) hbuild pos (by rw [xor_length]; omega)]
      rw [get_bit_xor input prev_input hlen1 hin hprev pos hpos]
  · rw [update_mask]
    by_cases hc : flag = true
    · rw [if_pos hc, if_pos hc]
      rw [get_bit_or (input.xor prev_input) build_prev (by rw [xor_length]; omega)
        (xor_sizeOk _ _) hbp pos (by rw [xor_length]; omega)]
      rw [get_bit_xor input prev_input hlen1 hin hprev pos hpos]
    · rw [if_neg hc, if_neg hc]
      rw [get_bit_or (input.xor prev_input) mask (by rw [xor_length]; omega)
        (xor_sizeOk _ _) hmask pos (by rw [xor_length]; omega)]
      rw [get_bit_xor input prev_input hlen1 hin hprev pos hpos]

/-- Witness for C3 at concrete 8-bit vectors, `t = 1`, flag clear, bit 3. -/
theorem mask_kernel_update_equations_witness :
    (update_build (BitVector.from_bytes [15] 8) (BitVector.from_bytes [179] 8)
        (BitVector.from_bytes [160] 8) false 1).get_bit 3
      = (if (1 : Nat) = 0 ∨ false = true then 0
         else ((BitVector.from_bytes [179] 8).get_bit 3 ^^^
            (BitVector.from_bytes [160] 8).get_bit 3) |||
            (BitVector.from_bytes [15] 8).get_bit 3) ∧
    (update_mask (BitVector.from_bytes [240] 8) (BitVector.from_bytes [179] 8)
        (BitVector.from_bytes [160] 8) (BitVector.from_bytes [12] 8) false).get_bit 3
      = (((BitVector.from_bytes [179] 8).get_bit 3 ^^^
          (BitVector.from_bytes [160] 8).get_bit 3) |||
         (if false = true then (BitVector.from_bytes [12] 8).get_bit 3
          else (BitVector.from_bytes [240] 8).get_bit 3)) :=
  mask_kernel_update_equations (BitVector.from_bytes [179] 8)
    (BitVector.from_bytes [160] 8) (BitVector.from_bytes [15] 8)
    (BitVector.from_bytes [240] 8) (BitVector.from_bytes [12] 8) false 1
    rfl rfl rfl rfl rfl rfl rfl rfl rfl 3 (by decide)

/-- C2: for every A with 1 <= A <= 65535, decoding the bit string produced
by `count_encode A` with `count_decode` yields exactly A and consumes
exactly the encoded bits, including the large-value branch (unary zero
count after `111`, one-bit rewind, value field read). -/
theorem count_roundtrip (A : Nat) (h1 : 1 ≤ A) (h2 : A ≤ 65535) (buf : BitBuffer)
    (henc : count_encode BitBuffer.new A = .ok buf) :
    count_decode (BitReader.new buf.to_bytes buf.len)
      = .ok (A, ⟨buf.to_bytes, buf.len, buf.len⟩) := by
  obtain ⟨L, hencL, hdec⟩ := count_roundtrip_core A h1 h2
  rw [hencL] at henc
  have hb : buf = ⟨L⟩ := by
    injection henc with h
    exact h.symm
  subst hb
  exact hdec

/-- Witness for C2 at A = 100 (the large-value branch). -/
theorem count_roundtrip_witness :
    count_decode (BitReader.new (BitBuffer.to_bytes ⟨bitsBE 3 7 ++ bitsBE 8 98⟩)
        (BitBuffer.len ⟨bitsBE 3 7 ++ bitsBE 8 98⟩))
      = .ok (100, ⟨BitBuffer.to_bytes ⟨bitsBE 3 7 ++ bitsBE 8 98⟩,
          BitBuffer.len ⟨bitsBE 3 7 ++ bitsBE 8 98⟩,
          BitBuffer.len ⟨bitsBE 3 7 ++ bitsBE 8 98⟩⟩) :=
  count_roundtrip 100 (by decide) (by decide) ⟨bitsBE 3 7 ++ bitsBE 8 98⟩
    (by rw [count_encode_eval_large 100 (by norm_num) (by norm_num)]
        norm_num [Nat.log2])


/-- C9: `count_decode` returns 0 exactly when the next two bits of the
stream are the terminator pattern `10`; and no encoding produced by
`count_encode` for A in [1, 65535] decodes to 0. -/
theorem count_decode_zero_terminator :
    (∀ r : BitReader, (∃ r2, count_decode r = .ok (0, r2)) ↔
      (r.bitPos + 2 ≤ r.numBits ∧ bitAt r.data r.bitPos = 1 ∧
        bitAt r.data (r.bitPos + 1) = 0)) ∧
    (∀ A, 1 ≤ A → A ≤ 65535 → ∀ res : Nat × BitReader,
      (count_encode BitBuffer.new A).bind
          (fun buf => count_decode (BitReader.new buf.to_bytes buf.len)) = .ok res →
      res.1 ≠ 0) := by
  constructor
  · intro r
    rw [count_decode]
    by_cases hp0 : r.bitPos ≥ r.numBits
    · rw [show r.read_bit = .error .underflow from by rw [BitReader.read_bit, if_pos hp0]]
      simp only []
      constructor
      · rintro ⟨r2, hr2⟩
        exact absurd hr2 (by simp)
      · rintro ⟨hle, -, -⟩
        omega
    · rw [show r.read_bit = .ok (bitAt r.data r.bitPos, ⟨r.data, r.numBits, r.bitPos + 1⟩)
          from by rw [BitReader.read_bit, if_neg hp0]]
      simp only []
      by_cases hb0 : bitAt r.data r.bitPos = 0
      · rw [if_pos hb0]
        constructor
        · rintro ⟨r2, hr2⟩
          exact absurd hr2 (by simp)
        · rintro ⟨-, hbit, -⟩
          omega
      · rw [if_neg hb0]
        by_cases hp1 : r.bitPos + 1 ≥ r.numBits
        · rw [show BitReader.read_bit ⟨r.data, r.numBits, r.bitPos + 1⟩ = .error .underflow
              from by rw [BitReader.read_bit]; simp only []; rw [if_pos (by omega)]]
          simp only []
          constructor
          · rintro ⟨r2, hr2⟩
            exact absurd hr2 (by simp)
          · rintro ⟨hle, -, -⟩
            omega
        · rw [show BitReader.read_bit ⟨r.data, r.numBits, r.bitPos + 1⟩
              = .ok (bitAt r.data (r.bitPos + 1), ⟨r.data, r.numBits, r.bitPos + 1 + 1⟩)
              from by rw [BitReader.read_bit]; simp only []; rw [if_neg (by omega)]]
          simp only []
          by_cases hb1 : bitAt r.data (r.bitPos + 1) = 0
          · rw [if_pos hb1]
            constructor
            · rintro ⟨r2, hr2⟩
              have hbit0 := bitAt_le_one r.data r.bitPos
              exact ⟨by omega, by omega, hb1⟩
            · rintro ⟨-, -, -⟩
              exact ⟨⟨r.data, r.numBits, r.bitPos + 1 + 1⟩, rfl⟩
          · rw [if_neg hb1]
            constructor
            · rintro ⟨r2, hr2⟩
              exfalso
              rcases h3 : BitReader.read_bit ⟨r.data, r.numBits, r.bitPos + 1 + 1⟩ with he | hv
              · rw [h3] at hr2
                simp at hr2
              · rw [h3] at hr2
                simp only [] at hr2
                obtain ⟨b2, r3⟩ := hv
                by_cases hb2 : b2 = 0
                · rw [if_pos hb2] at hr2
                  rcases h4 : BitReader.read_bits r3 5 with he2 | hv2
                  · rw [h4] at hr2
                    simp at hr2
                  · rw [h4] at hr2
                    obtain ⟨raw, r4⟩ := hv2
                    simp only [] at hr2
                    have hpair := Except.ok.inj hr2
                    have h0 : raw + 2 = 0 := congrArg Prod.fst hpair
                    omega
                · rw [if_neg hb2] at hr2
                  rcases h4 : countZerosLoop (r3.remaining + 1) r3 0 with he2 | hv2
                  · rw [h4] at hr2
                    simp at hr2
                  · rw [h4] at hr2
                    obtain ⟨size, r4⟩ := hv2
                    simp only [] at hr2
                    rcases h5 : r4.back with he3 | r5
                    · rw [h5] at hr2
                      simp at hr2
                    · rw [h5] at hr2
                      simp only [] at hr2
                      rcases h6 : r5.read_bits (size + 5) with he4 | hv4
                      · rw [h6] at hr2
                        simp at hr2
                      · rw [h6] at hr2
                        obtain ⟨raw, r6⟩ := hv4
                        simp only [] at hr2
                        have hpair := Except.ok.inj hr2
                        have h0 : raw + 2 = 0 := congrArg Prod.fst hpair
                        omega
            · rintro ⟨-, -, hbit1⟩
              exact absurd hbit1 hb1
  · intro A hA1 hA2 res hres
    obtain ⟨L, hencL, hdec⟩ := count_roundtrip_core A hA1 hA2
    rw [hencL] at hres
    simp only [Except.bind, BitBuffer.len] at hres
    rw [hdec] at hres
    have hpair := Except.ok.inj hres
    have h0 : res.1 = A := (congrArg Prod.fst hpair).symm
    omega

/-- Witness for C9 at the stream `10` and at A = 7. -/
theorem count_decode_zero_terminator_witness :
    ((∃ r2, count_decode (BitReader.new [128] 2) = .ok (0, r2)) ↔
      (0 + 2 ≤ 2 ∧ bitAt [128] 0 = 1 ∧ bitAt [128] 1 = 0)) ∧
    ((7, (⟨[0xC5], 8, 8⟩ : BitReader)).1 ≠ 0) :=
  ⟨count_decode_zero_terminator.1 (BitReader.new [128] 2),
   count_decode_zero_terminator.2 7 (by decide) (by decide) (7, ⟨[0xC5], 8, 8⟩) (by rfl)⟩

/-- C4 (amended): an out-of-range RLE gap is skipped, not an error — the
loop continues with the position and output unchanged — and `rle_decode`
never returns `invalid_format` at all (its only failures are reader
errors: `underflow` or `invalid_length`). -/
theorem rle_decode_skip_and_no_invalid_format :
    (∀ (fuel : Nat) (r : BitReader) (res : BitVector) (pos delta : Nat) (r2 : BitReader),
      count_decode r = .ok (delta, r2) → 0 < delta → pos < delta →
      rleDecodeLoop (fuel + 1) r res pos = rleDecodeLoop fuel r2 res pos) ∧
    (∀ (r : BitReader) (length : Nat) (msg : String),
      rle_decode r length ≠ .error (.invalidFormat msg)) := by
  constructor
  · intro fuel r res pos delta r2 hcd hd hpos
    simp only [rleDecodeLoop]
    rw [hcd]
    simp only []
    rw [if_neg (by omega), if_neg (by omega)]
  · intro r length msg h
    rcases rleDecodeLoop_err (r.remaining + 1) r (BitVector.new length) length
      (.invalidFormat msg) h with h1 | h1 <;> exact absurd h1 (by simp)

/-- Counterexample for C4: the stream `COUNT(9) ‖ 10` decoded at length 8
hits an impossible RLE position (gap 9 from position 8); the decoder returns
the all-zero vector successfully instead of failing with `invalid_format`. -/
theorem rle_decode_impossible_position_counterexample :
    rle_decode (BitReader.new [199, 128] 10) 8
      = .ok (BitVector.new 8, ⟨[199, 128], 10, 10⟩) := by rfl

/-- Witness for C4 (amended) at the same concrete stream. -/
theorem rle_decode_skip_and_no_invalid_format_witness :
    rleDecodeLoop 6 (BitReader.new [199, 128] 10) (BitVector.new 8) 8
      = rleDecodeLoop 5 ⟨[199, 128], 10, 8⟩ (BitVector.new 8) 8 ∧
    rle_decode (BitReader.new [0] 1) 4 ≠ .error (.invalidFormat ("x")) :=
  ⟨rle_decode_skip_and_no_invalid_format.1 5 (BitReader.new [199, 128] 10)
      (BitVector.new 8) 8 9 ⟨[199, 128], 10, 8⟩ (by rfl) (by decide) (by decide),
   rle_decode_skip_and_no_invalid_format.2 (BitReader.new [0] 1) 4 ("x")⟩

/-- C5 (amended): for every packet size that is divisible by 8, positive and
at most 65535 bits (the cap `Compressor::new` actually enforces — not the
524280 bits, i.e. 65535 bytes, stated by the spec), with robustness ≤ 7,
positive limits and a data length that is a multiple of the packet byte
count, `compress` never fails with `invalid_packet_size`. -/
theorem compress_accepts_packet_sizes (data : List Nat) (ps r p f rr : Nat)
    (h8 : ps % 8 = 0) (h0 : 0 < ps) (hmax : ps ≤ 65535) (hr : r ≤ 7)
    (hp : 0 < p) (hf : 0 < f) (hrr : 0 < rr)
    (hlen : data.length % (ps / 8) = 0) :
    ∀ n, compress data ps r p f rr ≠ .error (.invalidPacketSize n) := by
  intro n h
  rw [compress, if_neg (by omega), if_neg (by omega), if_neg (by omega)] at h
  by_cases hemp : data.isEmpty
  · rw [if_pos hemp] at h
    simp at h
  · rw [if_neg hemp, if_neg (fun hc => hc hlen)] at h
    rcases hC : Compressor.new ps none r p f rr with e | c
    · rw [Compressor.new, if_neg (by omega), if_neg (by omega)] at hC
      exact absurd hC (by simp)
    · rw [hC] at h
      try dsimp only [] at h
      exact compressGo_not_ips ps (ps / 8) r p f rr data _ c [] n h

/-- Witness for C5 (amended) at packet size 16, one packet. -/
theorem compress_accepts_packet_sizes_witness :
    compress [1, 2] 16 1 10 20 50 ≠ .error (.invalidPacketSize 0) :=
  compress_accepts_packet_sizes [1, 2] 16 1 10 20 50 (by decide) (by decide)
    (by decide) (by decide) (by decide) (by decide) (by decide) (by decide) 0

/-- Counterexample for C5: packet size 65536 bits (8192 bytes per packet,
divisible by 8 and well below 524280) with a well-formed one-packet buffer
is rejected with `invalid_packet_size`. -/
theorem compress_rejects_65536_bits :
    compress (List.replicate 8192 0) 65536 1 10 20 50
      = .error (.invalidPacketSize 65536) := by
  rw [compress, if_neg (by norm_num), if_neg (by norm_num), if_neg (by norm_num),
    if_neg (by rw [List.isEmpty_iff, List.replicate_eq_nil_iff]; norm_num),
    if_neg (by rw [List.length_replicate]; norm_num)]
  rw [show Compressor.new 65536 none 1 10 20 50 = .error (.invalidPacketSize 65536)
    from by rw [Compressor.new, if_pos (by norm_num)]]

/-- `countOnesAux` is unaffected by extra fuel once the fuel covers all the
binary digits of its argument. -/
theorem countOnesAux_stable : ∀ (f1 f2 w : Nat), w < 2 ^ f1 → f1 ≤ f2 →
    countOnesAux f2 w = countOnesAux f1 w := by
  intro f1
  induction f1 with
  | zero =>
    intro f2 w hw _
    have hw0 : w = 0 := by omega
    subst hw0
    cases f2 with
    | zero => rfl
    | succ f2 => simp [countOnesAux]
  | succ f1 ih =>
    intro f2 w hw hle
    cases f2 with
    | zero => omega
    | succ f2 =>
      by_cases h0 : w = 0
      · subst h0; simp [countOnesAux]
      · have e1 : countOnesAux (f1 + 1) w = countOnesAux f1 (w / 2) + w % 2 := by
          simp [countOnesAux, h0]
        have e2 : countOnesAux (f2 + 1) w = countOnesAux f2 (w / 2) + w % 2 := by
          simp [countOnesAux, h0]
        have hp : 2 ^ (f1 + 1) = 2 ^ f1 * 2 := pow_succ 2 f1
        rw [e1, e2, ih f2 (w / 2) (by omega) (by omega)]

/-- With enough fuel, `countOnesAux` counts the set bit positions. -/
theorem countOnesAux_eq_countP : ∀ (fuel w : Nat), w < 2 ^ fuel →
    countOnesAux fuel w = (List.range fuel).countP (fun k => w.testBit k) := by
  intro fuel
  induction fuel with
  | zero =>
    intro w hw
    have : w = 0 := by omega
    subst this
    rfl
  | succ fuel ih =>
    intro w hw
    by_cases h0 : w = 0
    · subst h0
      rw [List.countP_eq_zero.mpr]
      · simp [countOnesAux]
      · intro a _
        simp
    · have e1 : countOnesAux (fuel + 1) w = countOnesAux fuel (w / 2) + w % 2 := by
        simp [countOnesAux, h0]
      have hp : 2 ^ (fuel + 1) = 2 ^ fuel * 2 := pow_succ 2 fuel
      rw [e1, ih (w / 2) (by omega)]
      rw [List.range_succ_eq_map, List.countP_cons, List.countP_map]
      have hcongr : List.countP ((fun k => w.testBit k) ∘ Nat.succ) (List.range fuel)
          = List.countP (fun k => (w / 2).testBit k) (List.range fuel) := by
        apply List.countP_congr
        intro a _
        simp [Function.comp, Nat.testBit_add_one]
      rw [hcongr]
      simp only [Nat.testBit_zero]
      rcases Nat.mod_two_eq_zero_or_one w with h | h <;> rw [h] <;> simp

/-- `countOnes` of a u32 word counts its set bit positions below 32. -/
theorem countOnes_eq_countP (w : Nat) (hw : w < 2 ^ 32) :
    countOnes w = (List.range 32).countP (fun k => w.testBit k) := by
  rw [countOnes, countOnesAux_stable 32 64 w hw (by omega), countOnesAux_eq_countP 32 w hw]

/-- A u32 word has at most 32 set bits. -/
theorem countOnes_le_32 (w : Nat) (hw : w < 2 ^ 32) : countOnes w ≤ 32 := by
  rw [countOnes_eq_countP w hw]
  simpa using List.countP_le_length (fun k => w.testBit k) (l := List.range 32)

/-- A u32 word with popcount zero is zero. -/
theorem countOnes_eq_zero (w : Nat) (hw : w < 2 ^ 32) (h : countOnes w = 0) : w = 0 := by
  rw [countOnes_eq_countP w hw] at h
  apply Nat.eq_of_testBit_eq
  intro i
  rw [Nat.zero_testBit]
  by_cases hi : i < 32
  · simpa using List.countP_eq_zero.mp h i (List.mem_range.mpr hi)
  · exact Nat.testBit_eq_false_of_lt
      (lt_of_lt_of_le hw (Nat.pow_le_pow_right (by omega) (by omega)))

/-- Bitwise XOR distributes over the even/odd decomposition. -/
theorem xor_two_mul_add (a b c d : Nat) (hc : c < 2) (hd : d < 2) :
    (2 * a + c) ^^^ (2 * b + d) = 2 * (a ^^^ b) + (c ^^^ d) := by
  have hcd : c ^^^ d < 2 := by interval_cases c <;> interval_cases d <;> decide
  apply Nat.eq_of_testBit_eq
  intro i
  cases i with
  | zero =>
    have h1 : (2 * a + c) % 2 = c := by omega
    have h2 : (2 * b + d) % 2 = d := by omega
    have h3 : (2 * (a ^^^ b) + (c ^^^ d)) % 2 = c ^^^ d := by omega
    rw [Nat.testBit_xor, Nat.testBit_zero, Nat.testBit_zero, Nat.testBit_zero, h1, h2, h3]
    interval_cases c <;> interval_cases d <;> decide
  | succ i =>
    have h1 : (2 * a + c) / 2 = a := by omega
    have h2 : (2 * b + d) / 2 = b := by omega
    have h3 : (2 * (a ^^^ b) + (c ^^^ d)) / 2 = a ^^^ b := by omega
    rw [Nat.testBit_xor, Nat.testBit_add_one, Nat.testBit_add_one, Nat.testBit_add_one,
      h1, h2, h3, Nat.testBit_xor]

/-- Bitwise AND distributes over the even/odd decomposition. -/
theorem land_two_mul_add (a b c d : Nat) (hc : c < 2) (hd : d < 2) :
    (2 * a + c) &&& (2 * b + d) = 2 * (a &&& b) + (c &&& d) := by
  have hcd : c &&& d < 2 := by interval_cases c <;> interval_cases d <;> decide
  apply Nat.eq_of_testBit_eq
  intro i
  cases i with
  | zero =>
    have h1 : (2 * a + c) % 2 = c := by omega
    have h2 : (2 * b + d) % 2 = d := by omega
    have h3 : (2 * (a &&& b) + (c &&& d)) % 2 = c &&& d := by omega
    rw [Nat.testBit_land, Nat.testBit_zero, Nat.testBit_zero, Nat.testBit_zero, h1, h2, h3]
    interval_cases c <;> interval_cases d <;> decide
  | succ i =>
    have h1 : (2 * a + c) / 2 = a := by omega
    have h2 : (2 * b + d) / 2 = b := by omega
    have h3 : (2 * (a &&& b) + (c &&& d)) / 2 = a &&& b := by omega
    rw [Nat.testBit_land, Nat.testBit_add_one, Nat.testBit_add_one, Nat.testBit_add_one,
      h1, h2, h3, Nat.testBit_land]

/-- Subtracting from the all-ones value is bitwise complement (as XOR). -/
theorem two_pow_sub_one_sub_eq_xor : ∀ (n x : Nat), x < 2 ^ n →
    2 ^ n - 1 - x = (2 ^ n - 1) ^^^ x := by
  intro n
  induction n with
  | zero =>
    intro x hx
    have : x = 0 := by omega
    subst this
    rfl
  | succ n ih =>
    intro x hx
    have hp : 2 ^ (n + 1) = 2 ^ n * 2 := pow_succ 2 n
    have hpos : 0 < 2 ^ n := Nat.pos_pow_of_pos n (by omega)
    have hx2 : x / 2 < 2 ^ n := by omega
    have hxm : x % 2 < 2 := by omega
    have hbit : 1 - x % 2 = 1 ^^^ x % 2 := by
      rcases Nat.mod_two_eq_zero_or_one x with h | h <;> rw [h] <;> decide
    calc 2 ^ (n + 1) - 1 - x = 2 * (2 ^ n - 1 - x / 2) + (1 - x % 2) := by omega
      _ = 2 * ((2 ^ n - 1) ^^^ (x / 2)) + (1 ^^^ x % 2) := by rw [ih (x / 2) hx2, hbit]
      _ = (2 * (2 ^ n - 1) + 1) ^^^ (2 * (x / 2) + x % 2) :=
          (xor_two_mul_add (2 ^ n - 1) (x / 2) 1 (x % 2) (by omega) hxm).symm
      _ = (2 ^ (n + 1) - 1) ^^^ x := by
          congr 1 <;> omega

/-- A number shares no set bit with its complement below `2 ^ n`. -/
theorem land_two_pow_sub_one_sub (n a : Nat) (ha : a < 2 ^ n) :
    a &&& (2 ^ n - 1 - a) = 0 := by
  rw [two_pow_sub_one_sub_eq_xor n a ha]
  apply Nat.eq_of_testBit_eq
  intro i
  rw [Nat.testBit_land, Nat.testBit_xor, Nat.testBit_two_pow_sub_one, Nat.zero_testBit]
  by_cases hi : i < n
  · simp [hi]
  · rw [Nat.testBit_eq_false_of_lt
      (lt_of_lt_of_le ha (Nat.pow_le_pow_right (by omega) (by omega)))]
    rfl

/-- Double both operands of an AND. -/
theorem land_double (a b : Nat) : 2 * a &&& 2 * b = 2 * (a &&& b) := by
  have h := land_two_mul_add a b 0 0 (by omega) (by omega)
  simpa using h

/-- `w & w.wrapping_neg()` (here `w & (2 ^ n - w)`) isolates the lowest set
bit of a positive `w < 2 ^ n`. -/
theorem isolate_lsb : ∀ (n w : Nat), 0 < w → w < 2 ^ n →
    ∃ t, t < n ∧ w.testBit t = true ∧ w &&& (2 ^ n - w) = 2 ^ t := by
  intro n
  induction n with
  | zero => intro w h0 h1; omega
  | succ n ih =>
    intro w h0 h1
    have hp : 2 ^ (n + 1) = 2 ^ n * 2 := pow_succ 2 n
    rcases Nat.mod_two_eq_zero_or_one w with hpar | hpar
    · obtain ⟨u, hu⟩ : ∃ u, w = 2 * u := ⟨w / 2, by omega⟩
      obtain ⟨t, ht, htb, hand⟩ := ih u (by omega) (by omega)
      refine ⟨t + 1, by omega, ?_, ?_⟩
      · rw [hu, Nat.testBit_add_one]
        have : 2 * u / 2 = u := by omega
        rw [this]
        exact htb
      · have hsub : 2 ^ (n + 1) - w = 2 * (2 ^ n - u) := by omega
        rw [hsub, hu, land_double, hand, pow_succ]
        ring
    · obtain ⟨u, hu⟩ : ∃ u, w = 2 * u + 1 := ⟨w / 2, by omega⟩
      have hun : u < 2 ^ n := by omega
      refine ⟨0, by omega, ?_, ?_⟩
      · rw [Nat.testBit_zero, hpar]
        decide
      · have hv : 2 ^ (n + 1) - w = 2 * (2 ^ n - 1 - u) + 1 := by omega
        rw [hv, hu, land_two_mul_add u (2 ^ n - 1 - u) 1 1 (by omega) (by omega),
          land_two_pow_sub_one_sub n u hun]
        decide

/-- The DeBruijn multiply of `encode.rs` recovers the bit position of an
isolated LSB: for `lsb = 2 ^ t` the computed in-word position is `31 - t`. -/
theorem debruijnPos_pow_fin : ∀ t : Fin 32, debruijnPos (2 ^ t.val) = 31 - t.val := by decide

/-- `debruijnPos_pow_fin`, unbundled. -/
theorem debruijnPos_pow (t : Nat) (ht : t < 32) : debruijnPos (2 ^ t) = 31 - t :=
  debruijnPos_pow_fin ⟨t, ht⟩

/-- On a u32 word, `wrapping_neg` is plain subtraction from `2 ^ 32`. -/
theorem wrapNeg_eq (w : Nat) (h0 : 0 < w) (h1 : w < 2 ^ 32) : wrapNeg w = 2 ^ 32 - w := by
  have h32 : (2 : Nat) ^ 32 = 4294967296 := by norm_num
  unfold wrapNeg word32Mod
  omega

/-- The isolated-LSB identity, phrased with `wrapNeg` as the loops use it. -/
theorem isolate_wrapNeg (w : Nat) (h0 : 0 < w) (h1 : w < 2 ^ 32) :
    ∃ t, t < 32 ∧ w.testBit t = true ∧ w &&& wrapNeg w = 2 ^ t := by
  rw [wrapNeg_eq w h0 h1]
  exact isolate_lsb 32 w h0 h1
/-- Each position below `n` occurs exactly once in `range n`. -/
theorem count_range_self (t n : Nat) (ht : t < n) : (List.range n).count t = 1 :=
  List.count_eq_one_of_mem (List.nodup_range n) (List.mem_range.mpr ht)

/-- Flipping a predicate from true to false at `t` lowers `countP` by the
multiplicity of `t`. -/
theorem countP_flip (l : List Nat) (p q : Nat → Bool) (t : Nat)
    (hpq : ∀ k, k ≠ t → p k = q k) (hp : p t = true) (hq : q t = false) :
    l.countP p = l.countP q + l.count t := by
  induction l with
  | nil => rfl
  | cons a l ih =>
    rw [List.countP_cons, List.countP_cons, List.count_cons]
    by_cases ha : a = t
    · subst ha
      rw [hp, hq]
      simp
      omega
    · rw [hpq a ha]
      simp [ha]
      omega
/-- Clearing a set bit lowers the popcount by exactly one. -/
theorem countOnes_xor_pow (w t : Nat) (hw : w < 2 ^ 32) (ht : t < 32)
    (htb : w.testBit t = true) :
    countOnes w = countOnes (w ^^^ 2 ^ t) + 1 := by
  have h2 : (2 : Nat) ^ t < 2 ^ 32 := Nat.pow_lt_pow_right (by omega) ht
  have hw' : w ^^^ 2 ^ t < 2 ^ 32 := Nat.xor_lt_two_pow hw h2
  rw [countOnes_eq_countP w hw, countOnes_eq_countP _ hw']
  have hflip := countP_flip (List.range 32) (fun k => w.testBit k)
      (fun k => (w ^^^ 2 ^ t).testBit k) t
      (by
        intro k hk
        simp [Nat.testBit_xor, Nat.testBit_two_pow, Ne.symm hk])
      (by simpa using htb)
      (by simp [Nat.testBit_xor, Nat.testBit_two_pow, htb])
  rw [hflip, count_range_self t 32 ht]

/-- A successful `append_bit` grows the buffer by one bit. -/
theorem append_bit_length (b : BitBuffer) (bit : Nat) (b2 : BitBuffer)
    (h : b.append_bit bit = some b2) : b2.bits.length = b.bits.length + 1 := by
  rw [BitBuffer.append_bit] at h
  rcases Nat.lt_or_ge b.bits.length (maxOutputBytes * 8) with hlt | hge
  · rw [if_neg (by omega)] at h
    cases h
    simp
  · rw [if_pos (by omega)] at h
    cases h
/-- Successful runs of the BE word loop append one bit per set mask-word bit,
provided every set bit addresses a valid position. -/
theorem beWordLoop_len : ∀ (fuel w : Nat) (o : BitBuffer) (wi len dw : Nat) (out : BitBuffer),
    w < 2 ^ 32 → countOnes w ≤ fuel →
    (∀ k, k < 32 → w.testBit k = true → wi * 32 + (31 - k) < len) →
    beWordLoop fuel o wi len dw w = .ok out →
    out.bits.length = o.bits.length + countOnes w := by
  intro fuel
  induction fuel with
  | zero =>
    intro w o wi len dw out hw hc hval h
    have hw0 : w = 0 := countOnes_eq_zero w hw (by omega)
    subst hw0
    simp only [beWordLoop, Except.ok.injEq] at h
    subst h
    have hz : countOnes 0 = 0 := by decide
    omega
  | succ fuel ih =>
    intro w o wi len dw out hw hc hval h
    by_cases h0 : w = 0
    · subst h0
      simp only [beWordLoop, Except.ok.injEq, if_pos] at h
      subst h
      have hz : countOnes 0 = 0 := by decide
      omega
    · obtain ⟨t, ht, htb, hlsb⟩ := isolate_wrapNeg w (Nat.pos_of_ne_zero h0) hw
      simp only [beWordLoop] at h
      rw [if_neg h0] at h
      try dsimp only [] at h
      rw [hlsb, debruijnPos_pow t ht] at h
      have hpos : wi * 32 + (31 - t) < len := hval t ht htb
      rw [if_pos hpos] at h
      rcases happ : o.append_bit (if dw &&& 2 ^ t ≠ 0 then 1 else 0) with _ | o2
      · rw [happ] at h
        exact Except.noConfusion h
      · rw [happ] at h
        have h2 : (2 : Nat) ^ t < 2 ^ 32 := Nat.pow_lt_pow_right (by omega) ht
        have hw' : w ^^^ 2 ^ t < 2 ^ 32 := Nat.xor_lt_two_pow hw h2
        have hdec := countOnes_xor_pow w t hw ht htb
        have hval' : ∀ k, k < 32 → (w ^^^ 2 ^ t).testBit k = true →
            wi * 32 + (31 - k) < len := by
          intro k hk hbk
          apply hval k hk
          by_cases hkt : k = t
          · subst hkt
            rw [Nat.testBit_xor, Nat.testBit_two_pow, htb] at hbk
            simp at hbk
          · rw [Nat.testBit_xor, Nat.testBit_two_pow] at hbk
            simpa [Ne.symm hkt] using hbk
        have hlen2 := append_bit_length o _ o2 happ
        have hrec := ih (w ^^^ 2 ^ t) o2 wi len dw out hw' (by omega) hval' h
        omega
/-- `getLastD` is `getD` at the last index. -/
theorem getLastD_eq_getD (L : List Nat) : L.getLastD 0 = L.getD (L.length - 1) 0 := by
  rw [List.getLastD_eq_getLast?, List.getLast?_eq_getElem?, List.getD_eq_getElem?_getD]

/-- Folding the BE word loop over a list of word indices appends one bit per
set (and in-range) mask-word bit. -/
theorem beFold_len : ∀ (l : List Nat) (d m : Nat → Nat) (len : Nat) (o out : BitBuffer),
    (∀ wi ∈ l, m wi < 2 ^ 32) →
    (∀ wi ∈ l, ∀ k, k < 32 → (m wi).testBit k = true → wi * 32 + (31 - k) < len) →
    l.foldlM (fun o wi => beWordLoop 32 o wi len (d wi) (m wi)) o = .ok out →
    out.bits.length = o.bits.length + (l.map (fun wi => countOnes (m wi))).sum := by
  intro l
  induction l with
  | nil =>
    intro d m len o out _ _ h
    simp only [List.foldlM_nil] at h
    cases h
    simp
  | cons a l ih =>
    intro d m len o out hm hval h
    rw [List.foldlM_cons] at h
    rcases hw : beWordLoop 32 o a len (d a) (m a) with e | o2
    · rw [hw] at h
      exact Except.noConfusion h
    · rw [hw] at h
      have h' : l.foldlM (fun o wi => beWordLoop 32 o wi len (d wi) (m wi)) o2 = .ok out := h
      have hma := hm a (List.mem_cons_self a l)
      have h1 := beWordLoop_len 32 (m a) o a len (d a) o2 hma
        (countOnes_le_32 (m a) hma) (hval a (List.mem_cons_self a l)) hw
      have h2 := ih d m len o2 out (fun wi hwi => hm wi (List.mem_cons_of_mem a hwi))
        (fun wi hwi => hval wi (List.mem_cons_of_mem a hwi)) h'
      rw [List.map_cons, List.sum_cons]
      omega

/-- Folding `+ countOnes` is summing popcounts. -/
theorem foldl_countOnes_eq_sum : ∀ (L : List Nat) (acc : Nat),
    L.foldl (fun a w => a + countOnes w) acc = acc + (L.map countOnes).sum := by
  intro L
  induction L with
  | nil => intro acc; simp
  | cons w L ih =>
    intro acc
    rw [List.foldl_cons, ih, List.map_cons, List.sum_cons]
    omega

/-- Summing a function of `getD` over `range L.length` is summing over `L`. -/
theorem sum_map_getD_range : ∀ (L : List Nat) (f : Nat → Nat),
    ((List.range L.length).map (fun i => f (L.getD i 0))).sum = (L.map f).sum := by
  intro L
  induction L with
  | nil => intro f; rfl
  | cons x L ih =>
    intro f
    rw [show (x :: L).length = L.length + 1 from rfl, List.range_succ_eq_map]
    rw [List.map_cons, List.map_map, List.sum_cons, List.getD_cons_zero]
    have hco : ((fun i => f ((x :: L).getD i 0)) ∘ Nat.succ) = (fun i => f (L.getD i 0)) := by
      funext i
      simp [Function.comp, List.getD_cons_succ]
    rw [hco, ih f]
    rw [List.map_cons, List.sum_cons]

/-- For a garbage-free vector of the storage size `BitVector::new` allocates,
`hamming_weight` is exactly the sum of the word popcounts: the partial-byte
correction term vanishes. -/
theorem hamming_weight_of_garbage_free (v : BitVector)
    (hsz : v.data.length = numWordsFor v.length)
    (hgf : v.GarbageFree) :
    v.hamming_weight = (v.data.map countOnes).sum := by
  rw [BitVector.hamming_weight]
  try dsimp only []
  by_cases hc : ((v.length + 7) / 8 * 8 - v.length > 0 ∧ v.data ≠ [])
  · rw [if_pos hc]
    obtain ⟨hE, hne⟩ := hc
    have hn : 0 < v.data.length := List.length_pos.mpr hne
    have hlast : v.data.getLastD 0 &&& (2 ^ ((v.length + 7) / 8 * 8 - v.length) - 1) = 0 := by
      rw [getLastD_eq_getD]
      apply Nat.eq_of_testBit_eq
      intro k
      rw [Nat.testBit_land, Nat.testBit_two_pow_sub_one, Nat.zero_testBit]
      by_cases hk : k < (v.length + 7) / 8 * 8 - v.length
      · have hk32 : k < 32 := by omega
        cases hb : (v.data.getD (v.data.length - 1) 0).testBit k
        · simp
        · exfalso
          have hp := hgf (v.data.length - 1) (by omega) k hk32 hb
          rw [numWordsFor] at hsz
          omega
      · simp [hk]
    rw [hlast]
    have hz : countOnes 0 = 0 := by decide
    rw [hz, foldl_countOnes_eq_sum]
    omega
  · rw [if_neg hc, foldl_countOnes_eq_sum]
    omega
/-- C7 (amended): for every pair `(data, mask)` of bit vectors of the same
length `F`, with the storage shape `BitVector::new` allocates, u32-valued
words, and a garbage-free mask (no stored set bit at a position `≥ F`),
a successful `bit_extract` (BE) appends exactly `hamming_weight mask` bits
to the output buffer.  Without the garbage-free hypothesis the claim fails:
`hamming_weight`'s partial-byte correction masks the low bits of the last
word, which are not the storage bits of the positions beyond `F`. -/
theorem bit_extract_appends_hamming_weight
    (output : BitBuffer) (data mask : BitVector) (out : BitBuffer)
    (hlen : data.length = mask.length)
    (hsz : mask.data.length = numWordsFor mask.length)
    (hw : ∀ w ∈ mask.data, w < 2 ^ 32)
    (hgf : mask.GarbageFree)
    (hok : bit_extract output data mask = .ok out) :
    out.len = output.len + mask.hamming_weight := by
  rw [bit_extract, if_neg (show ¬data.length ≠ mask.length by omega)] at hok
  have hm : ∀ wi ∈ (List.range mask.data.length).reverse, mask.data.getD wi 0 < 2 ^ 32 := by
    intro wi hwi
    rw [List.mem_reverse, List.mem_range] at hwi
    rw [List.getD_eq_getElem mask.data 0 hwi]
    exact hw _ (List.getElem_mem hwi)
  have hv : ∀ wi ∈ (List.range mask.data.length).reverse, ∀ k, k < 32 →
      (mask.data.getD wi 0).testBit k = true → wi * 32 + (31 - k) < data.length := by
    intro wi hwi k hk hb
    rw [List.mem_reverse, List.mem_range] at hwi
    rw [hlen]
    exact hgf wi hwi k hk hb
  have hfold := beFold_len ((List.range mask.data.length).reverse)
      (fun wi => data.data.getD wi 0) (fun wi => mask.data.getD wi 0)
      data.length output out hm hv hok
  rw [List.map_reverse, List.sum_reverse] at hfold
  rw [BitBuffer.len, BitBuffer.len, hfold,
    sum_map_getD_range mask.data countOnes,
    hamming_weight_of_garbage_free mask hsz hgf]

/-- Witness for C7 at `F = 8`, `data = 0xAA`, `mask = 0xF0`: the mask is
garbage-free with `hamming_weight 4`, and BE appends exactly the 4 data bits
`0101` (positions 3, 2, 1, 0, in the loop's order). -/
theorem bit_extract_appends_hamming_weight_witness :
    (BitVector.from_bytes [240] 8).GarbageFree ∧
    (BitVector.from_bytes [240] 8).data.length
        = numWordsFor (BitVector.from_bytes [240] 8).length ∧
    (∀ w ∈ (BitVector.from_bytes [240] 8).data, w < 2 ^ 32) ∧
    bit_extract BitBuffer.new (BitVector.from_bytes [170] 8) (BitVector.from_bytes [240] 8)
        = .ok ⟨[false, true, false, true]⟩ ∧
    BitBuffer.len ⟨[false, true, false, true]⟩
        = BitBuffer.new.len + (BitVector.from_bytes [240] 8).hamming_weight :=
  ⟨by decide, by decide, by decide, rfl,
    bit_extract_appends_hamming_weight BitBuffer.new (BitVector.from_bytes [170] 8)
      (BitVector.from_bytes [240] 8) ⟨[false, true, false, true]⟩ rfl (by decide) (by decide)
      (by decide) rfl⟩

/-- Counterexample to C7 as stated: a 5-bit mask stored from the byte `0xFF`
has garbage bits at positions 5, 6, 7 which `hamming_weight` still counts
(its correction term masks the low bits of the word, which are zero here),
so `hamming_weight = 8`, yet BE appends only the 5 valid bits — with no
buffer overflow, since the extraction succeeds. -/
theorem bit_extract_hamming_weight_counterexample :
    bit_extract BitBuffer.new (BitVector.new 5) (BitVector.from_bytes [255] 5)
        = .ok ⟨[false, false, false, false, false]⟩ ∧
      (BitVector.from_bytes [255] 5).hamming_weight = 8 := ⟨rfl, rfl⟩

end PocketPlus





